import Mathlib

/-! # The oscilloscope capture path of the JUCE DSP tutorial

A shallow embedding of `AudioBufferQueue` and `ScopeDataCollector` from
`Source/DSPIntroductionTutorial_01.h`, together with the part of the JUCE
library class `juce::AbstractFifo` that the queue calls.

Conventions of the embedding.

* `SampleType` is instantiated by the rationals: the code only copies and
  compares samples, and every finite `float` is a rational number with the same
  order.  NaN is outside the model.
* A `(pointer, count)` argument pair is a list holding the `count` samples that
  the pointer addresses; a destination pointer is the list of samples it
  addresses, and the call returns the list after the call.
* The `static constexpr` members `bufferSize` and `numBuffers` and the constant
  `triggerLevel` are explicit parameters `bs`, `nb` and `tl` of the operations
  (template-style), so that the queue and the collector can be instantiated at
  other sizes; the repository's own values are `AudioBufferQueue.bufferSize`,
  `AudioBufferQueue.numBuffers` and `ScopeDataCollector.triggerLevel`.
* `jassert` is a diagnostic that does not change the control flow of the call;
  the asserted conditions of `push` are kept as the separate predicate
  `AudioBufferQueue.pushAsserts`.
-/

/-- The sample type (`SampleType`, `float` in the application). -/
abbrev Sample := ℚ

/-! ## `juce::AbstractFifo` -/

/-- The state of `juce::AbstractFifo`: the total size given to the constructor and the
two cursors.  The class is part of the JUCE library (module `juce_core`, file
`containers/juce_AbstractFifo.cpp`), which the repository uses through `JuceHeader.h`
and does not contain.  The operations below are modelled on the library's
implementation.  There `prepareToWrite` grants `jmin (numToWrite, freeSpace - 1)`
positions, where `freeSpace` is the total size minus the number of ready items: one
position of the ring always stays free, so that `validStart == validEnd` means "empty",
and `getFreeSpace` is `bufferSize - getNumReady() - 1`. -/
structure AbstractFifo where
  bufferSize : Int
  validStart : Int
  validEnd : Int
deriving DecidableEq, Repr

/-- The four out-parameters of `prepareToWrite` and `prepareToRead`. -/
structure FifoBlocks where
  startIndex1 : Int
  blockSize1 : Int
  startIndex2 : Int
  blockSize2 : Int
deriving DecidableEq, Repr

namespace AbstractFifo

/-- The constructor `AbstractFifo (int capacity)`: both cursors start at zero. -/
def create (capacity : Int) : AbstractFifo :=
  { bufferSize := capacity, validStart := 0, validEnd := 0 }

/-- The library's `getNumReady`. -/
def getNumReady (f : AbstractFifo) : Int :=
  let vs := f.validStart
  let ve := f.validEnd
  if ve ≥ vs then ve - vs else f.bufferSize - (vs - ve)

/-- The library's `getFreeSpace`: `bufferSize - getNumReady() - 1`. -/
def getFreeSpace (f : AbstractFifo) : Int :=
  f.bufferSize - f.getNumReady - 1

/-- The library's `prepareToWrite (numToWrite, start1, size1, start2, size2)`. -/
def prepareToWrite (f : AbstractFifo) (numToWrite : Int) : FifoBlocks :=
  let vs := f.validStart
  let ve := f.validEnd
  let freeSpace := if ve ≥ vs then f.bufferSize - (ve - vs) else vs - ve
  let numToWrite := min numToWrite (freeSpace - 1)
  if numToWrite ≤ 0 then
    { startIndex1 := 0, blockSize1 := 0, startIndex2 := 0, blockSize2 := 0 }
  else
    let blockSize1 := min (f.bufferSize - ve) numToWrite
    let numToWrite := numToWrite - blockSize1
    { startIndex1 := ve, blockSize1 := blockSize1, startIndex2 := 0,
      blockSize2 := if numToWrite ≤ 0 then 0 else min numToWrite vs }

/-- The library's `finishedWrite (numWritten)`. -/
def finishedWrite (f : AbstractFifo) (numWritten : Int) : AbstractFifo :=
  let newEnd := f.validEnd + numWritten
  let newEnd := if newEnd ≥ f.bufferSize then newEnd - f.bufferSize else newEnd
  { f with validEnd := newEnd }

/-- The library's `prepareToRead (numWanted, start1, size1, start2, size2)`. -/
def prepareToRead (f : AbstractFifo) (numWanted : Int) : FifoBlocks :=
  let vs := f.validStart
  let ve := f.validEnd
  let numReady := if ve ≥ vs then ve - vs else f.bufferSize - (vs - ve)
  let numWanted := min numWanted numReady
  if numWanted ≤ 0 then
    { startIndex1 := 0, blockSize1 := 0, startIndex2 := 0, blockSize2 := 0 }
  else
    let blockSize1 := min (f.bufferSize - vs) numWanted
    let numWanted := numWanted - blockSize1
    { startIndex1 := vs, blockSize1 := blockSize1, startIndex2 := 0,
      blockSize2 := if numWanted ≤ 0 then 0 else min numWanted ve }

/-- The library's `finishedRead (numRead)`. -/
def finishedRead (f : AbstractFifo) (numRead : Int) : AbstractFifo :=
  let newStart := f.validStart + numRead
  let newStart := if newStart ≥ f.bufferSize then newStart - f.bufferSize else newStart
  { f with validStart := newStart }

/-- The class invariant of the fifo: a positive size and both cursors inside the ring. -/
def Valid (f : AbstractFifo) : Prop :=
  0 < f.bufferSize ∧ 0 ≤ f.validStart ∧ f.validStart < f.bufferSize ∧
    0 ≤ f.validEnd ∧ f.validEnd < f.bufferSize

instance (f : AbstractFifo) : Decidable f.Valid := by
  unfold Valid; infer_instance

end AbstractFifo

/-! ## `FloatVectorOperations::copy` -/

/-- The call `FloatVectorOperations::copy (dest, src, num)`: the first `num` samples of
`dest` are replaced by the first `num` samples of `src`; the rest of `dest` is kept. -/
def FloatVectorOperations.copy (dest src : List Sample) (num : Nat) : List Sample :=
  src.take num ++ dest.drop num

/-! ## `AudioBufferQueue` -/

/-- The data members of `AudioBufferQueue`: the fifo and the array of slots. -/
structure AudioBufferQueue where
  abstractFifo : AbstractFifo
  buffers : List (List Sample)
deriving DecidableEq, Repr

namespace AudioBufferQueue

/-- The member `static constexpr size_t order = 9`. -/
def order : Nat := 9

/-- The member `static constexpr size_t bufferSize = 1U << order`. -/
def bufferSize : Nat := 1 <<< order

/-- The member `static constexpr size_t numBuffers = 5`. -/
def numBuffers : Nat := 5

/-- A freshly constructed queue: `abstractFifo { numBuffers }` and value-initialised
(all zero) `buffers {}`, for block length `bs` and `nb` slots. -/
def create (bs nb : Nat) : AudioBufferQueue :=
  { abstractFifo := AbstractFifo.create nb
    buffers := List.replicate nb (List.replicate bs 0) }

/-- The three `jassert` conditions of `push`, evaluated for the call:
`numSamples <= bufferSize`, `size1 <= 1` and `size2 == 0`. -/
def pushAsserts (bs : Nat) (q : AudioBufferQueue) (dataToPush : List Sample) : Bool :=
  let r := q.abstractFifo.prepareToWrite 1
  decide (dataToPush.length ≤ bs) && decide (r.blockSize1 ≤ 1) && decide (r.blockSize2 = 0)

/-- Whether `push` obtains a slot from the fifo (`size1 > 0`). -/
def pushAccepted (q : AudioBufferQueue) : Bool :=
  decide ((q.abstractFifo.prepareToWrite 1).blockSize1 > 0)

/-- The method `AudioBufferQueue::push (dataToPush, numSamples)`, with `numSamples` the
length of `dataToPush`: when the fifo grants a slot (`size1 > 0`), the first
`jmin (bufferSize, numSamples)` samples are copied into `buffers[start1]`; then
`finishedWrite (size1)`. -/
def push (bs : Nat) (q : AudioBufferQueue) (dataToPush : List Sample) : AudioBufferQueue :=
  let r := q.abstractFifo.prepareToWrite 1
  let buffers :=
    if r.blockSize1 > 0 then
      q.buffers.set r.startIndex1.toNat
        (FloatVectorOperations.copy (q.buffers.getD r.startIndex1.toNat []) dataToPush
          (min bs dataToPush.length))
    else q.buffers
  { abstractFifo := q.abstractFifo.finishedWrite r.blockSize1, buffers := buffers }

/-- Whether `pop` finds a ready slot (`size1 > 0`). -/
def popFound (q : AudioBufferQueue) : Bool :=
  decide ((q.abstractFifo.prepareToRead 1).blockSize1 > 0)

/-- The method `AudioBufferQueue::pop (outputBuffer)`: the queue after the call and the
samples addressed by `outputBuffer` after the call.  When the fifo grants a slot
(`size1 > 0`), `bufferSize` samples of `buffers[start1]` are copied to `outputBuffer`;
then `finishedRead (size1)`. -/
def pop (bs : Nat) (q : AudioBufferQueue) (outputBuffer : List Sample) :
    AudioBufferQueue × List Sample :=
  let r := q.abstractFifo.prepareToRead 1
  let out :=
    if r.blockSize1 > 0 then
      FloatVectorOperations.copy outputBuffer (q.buffers.getD r.startIndex1.toNat []) bs
    else outputBuffer
  ({ q with abstractFifo := q.abstractFifo.finishedRead r.blockSize1 }, out)

/-- The representation invariant of a queue with block length `bs` and `nb` slots. -/
def Valid (bs nb : Nat) (q : AudioBufferQueue) : Prop :=
  q.abstractFifo.Valid ∧ q.abstractFifo.bufferSize = nb ∧ q.buffers.length = nb ∧
    ∀ b ∈ q.buffers, b.length = bs

/-- The index of the slot that holds the `i`-th unread block (`i = 0` is the oldest). -/
def slotIndex (q : AudioBufferQueue) (i : Nat) : Nat :=
  let k := q.abstractFifo.validStart + i
  (if k ≥ q.abstractFifo.bufferSize then k - q.abstractFifo.bufferSize else k).toNat

/-- The unread blocks of the queue, oldest first. -/
def unread (q : AudioBufferQueue) : List (List Sample) :=
  (List.range q.abstractFifo.getNumReady.toNat).map fun i => q.buffers.getD (q.slotIndex i) []

/-- The relation `q.Holds bs nb pending`: `q` is a valid queue whose unread blocks, oldest
first, are exactly `pending`. -/
def Holds (bs nb : Nat) (q : AudioBufferQueue) (pending : List (List Sample)) : Prop :=
  q.Valid bs nb ∧ q.abstractFifo.getNumReady = pending.length ∧
    ∀ i, i < pending.length → q.buffers[q.slotIndex i]? = pending[i]?

end AudioBufferQueue

/-! ## Runs of queue operations -/

/-- One call on the queue, with its argument. -/
inductive QueueOp where
  | push (dataToPush : List Sample)
  | pop (outputBuffer : List Sample)
deriving DecidableEq, Repr

/-- What a call did: for `push`, whether a slot was obtained and the block passed; for
`pop`, whether a ready slot was found and the destination after the call. -/
inductive QueueEvent where
  | pushed (accepted : Bool) (dataToPush : List Sample)
  | popped (found : Bool) (outputBuffer : List Sample)
deriving DecidableEq, Repr

namespace AudioBufferQueue

/-- Perform one call. -/
def step (bs : Nat) (q : AudioBufferQueue) : QueueOp → AudioBufferQueue × QueueEvent
  | .push d => (q.push bs d, .pushed q.pushAccepted d)
  | .pop o => ((q.pop bs o).1, .popped q.popFound (q.pop bs o).2)

/-- Perform a sequence of calls, in order. -/
def run (bs : Nat) (q : AudioBufferQueue) : List QueueOp → AudioBufferQueue × List QueueEvent
  | [] => (q, [])
  | op :: ops =>
    let r := q.step bs op
    let rest := run bs r.1 ops
    (rest.1, r.2 :: rest.2)

/-- The queue states that arise from a freshly constructed queue by calls of `push` and
`pop`, with any arguments. -/
inductive Reachable (bs nb : Nat) : AudioBufferQueue → Prop where
  | create : Reachable bs nb (create bs nb)
  | push {q : AudioBufferQueue} (dataToPush : List Sample) :
      Reachable bs nb q → Reachable bs nb (q.push bs dataToPush)
  | pop {q : AudioBufferQueue} (outputBuffer : List Sample) :
      Reachable bs nb q → Reachable bs nb (q.pop bs outputBuffer).1

end AudioBufferQueue

/-- The blocks passed to the pushes of a sequence of calls, in order. -/
def pushedBlocks : List QueueOp → List (List Sample)
  | [] => []
  | .push d :: ops => d :: pushedBlocks ops
  | .pop _ :: ops => pushedBlocks ops

/-- The blocks of the pushes that obtained a slot, in order. -/
def acceptedBlocks : List QueueEvent → List (List Sample)
  | [] => []
  | .pushed true d :: es => d :: acceptedBlocks es
  | .pushed false _ :: es => acceptedBlocks es
  | .popped _ _ :: es => acceptedBlocks es

/-- The blocks copied out by the pops that found a ready slot, in order: the first `bs`
samples of each such destination after the call. -/
def deliveredBlocks (bs : Nat) : List QueueEvent → List (List Sample)
  | [] => []
  | .popped true o :: es => o.take bs :: deliveredBlocks bs es
  | .popped false _ :: es => deliveredBlocks bs es
  | .pushed _ _ :: es => deliveredBlocks bs es

/-- Every push of the sequence passes exactly `bs` samples. -/
def fullLength (bs : Nat) : List QueueOp → Prop
  | [] => True
  | .push d :: ops => d.length = bs ∧ fullLength bs ops
  | .pop _ :: ops => fullLength bs ops

/-- Counting every push as one more unread block and every pop as one less (when there
is one), fewer than `limit` blocks are unread at the moment of every push, starting
from `n` unread blocks. -/
def roomAtEveryPush (limit : Nat) : Nat → List QueueOp → Prop
  | _, [] => True
  | n, .push _ :: ops => n < limit ∧ roomAtEveryPush limit (n + 1) ops
  | n, .pop _ :: ops => roomAtEveryPush limit (n - 1) ops

/-- A block of `AudioBufferQueue.bufferSize` samples that all carry the tag `k`. -/
def taggedBlock (k : Nat) : List Sample :=
  List.replicate AudioBufferQueue.bufferSize (k : Sample)

/-- Seven pairwise distinct full-length blocks, tagged `1` to `7`. -/
def sevenBlocks : List (List Sample) :=
  [taggedBlock 1, taggedBlock 2, taggedBlock 3, taggedBlock 4, taggedBlock 5, taggedBlock 6,
    taggedBlock 7]

/-! ## `ScopeDataCollector` -/

/-- The type `enum class State { waitingForTrigger, collecting }`. -/
inductive ScopeDataCollector.State where
  | waitingForTrigger
  | collecting
deriving DecidableEq, Repr

/-- The data members of `ScopeDataCollector`.  `audioBufferQueue` is the state of the
queue that the collector refers to. -/
structure ScopeDataCollector where
  audioBufferQueue : AudioBufferQueue
  buffer : List Sample
  numCollected : Nat
  prevSample : Sample
  state : ScopeDataCollector.State
deriving DecidableEq, Repr

namespace ScopeDataCollector

/-- The member `static constexpr auto triggerLevel = SampleType (0.05)`. -/
def triggerLevel : Sample := 0.05

/-- A freshly constructed collector on the queue `queueToUse`: `numCollected {}`,
`prevSample = SampleType (100)`, `state { State::waitingForTrigger }`.  The member
`buffer` has no initialiser; `buffer` stands for whatever it holds at first. -/
def create (queueToUse : AudioBufferQueue) (buffer : List Sample) : ScopeDataCollector :=
  { audioBufferQueue := queueToUse, buffer := buffer, numCollected := 0, prevSample := 100,
    state := .waitingForTrigger }

/-- The first loop of `process` (state `waitingForTrigger`), run on the samples not yet
consumed: it returns the collector and the samples left for the second loop. -/
def waitLoop (tl : Sample) (c : ScopeDataCollector) :
    List Sample → ScopeDataCollector × List Sample
  | [] => (c, [])
  | currentSample :: data =>
    if currentSample ≥ tl ∧ c.prevSample < tl then
      ({ c with numCollected := 0, state := .collecting }, data)
    else
      waitLoop tl { c with prevSample := currentSample } data

/-- The second loop of `process` (state `collecting`), run on the samples not yet
consumed: it returns the collector and the blocks passed to `audioBufferQueue.push`. -/
def collectLoop (bs : Nat) (c : ScopeDataCollector) :
    List Sample → ScopeDataCollector × List (List Sample)
  | [] => (c, [])
  | sample :: data =>
    let c1 := { c with buffer := c.buffer.set c.numCollected sample,
                       numCollected := c.numCollected + 1 }
    if c1.numCollected = c1.buffer.length then
      ({ c1 with audioBufferQueue := c1.audioBufferQueue.push bs c1.buffer,
                 state := .waitingForTrigger, prevSample := 100 }, [c1.buffer])
    else
      collectLoop bs c1 data

/-- The method `ScopeDataCollector::process (data, numSamples)`: the collector after the call and
the blocks passed to `audioBufferQueue.push` during the call, in order. -/
def process (tl : Sample) (bs : Nat) (c : ScopeDataCollector) (data : List Sample) :
    ScopeDataCollector × List (List Sample) :=
  let r := if c.state = .waitingForTrigger then waitLoop tl c data else (c, data)
  if r.1.state = .collecting then collectLoop bs r.1 r.2 else (r.1, [])

/-- Feed a stream that arrives in chunks, one `process` call per chunk: the collector at
the end and all blocks passed to `audioBufferQueue.push`, in order. -/
def feed (tl : Sample) (bs : Nat) (c : ScopeDataCollector) :
    List (List Sample) → ScopeDataCollector × List (List Sample)
  | [] => (c, [])
  | chunk :: chunks =>
    let r := process tl bs c chunk
    let rest := feed tl bs r.1 chunks
    (rest.1, r.2 ++ rest.2)

/-- The cutting of a stream into chunks of one sample each. -/
def singles (s : List Sample) : List (List Sample) :=
  s.map fun x => [x]

/-- Every block that is completed while the chunks are fed, starting from `c`, is completed
by the last sample of its chunk: no call pushes before it has consumed its whole chunk. -/
def blocksEndChunks (tl : Sample) (bs : Nat) :
    ScopeDataCollector → List (List Sample) → Prop
  | _, [] => True
  | c, chunk :: chunks =>
    (∀ a b, chunk = a ++ b → b ≠ [] → (process tl bs c a).2 = []) ∧
      blocksEndChunks tl bs (process tl bs c chunk).1 chunks

/-- No rising edge through the level `tl` in the samples `p, x₀, x₁, ...`: no sample at or
above the level directly follows a sample below it. -/
def noCross (tl : Sample) : Sample → List Sample → Prop
  | _, [] => True
  | p, x :: xs => ¬ (p < tl ∧ tl ≤ x) ∧ noCross tl x xs

/-- A lower bound on the number of samples that `process` must still consume before its
next push: the samples missing from the block while collecting; while waiting, a sample
that crosses the level and a whole block, and one sample more when the previous sample is
not below the level. -/
def samplesToPush (tl : Sample) (c : ScopeDataCollector) : Nat :=
  match c.state with
  | .collecting => c.buffer.length - c.numCollected
  | .waitingForTrigger =>
    if c.prevSample < tl then c.buffer.length + 1 else c.buffer.length + 2

/-- The stream `s` crosses the level `tl` upwards at index `t`: `t ≥ 1` and
`s[t - 1] < tl ≤ s[t]`. -/
def crossAt (tl : Sample) (s : List Sample) (t : Nat) : Prop :=
  1 ≤ t ∧ ∃ p x, s[t - 1]? = some p ∧ s[t]? = some x ∧ p < tl ∧ tl ≤ x

/-- The first loop of `process` with its counter `index` and the read position `pos` of
the pointer `data`, on the input region `mem`: `while (index++ < numSamples)` reads
`*data++`.  A read outside `mem` gives `none`.  The result is the collector, the counter
and the read position after the loop. -/
def waitLoopAt (tl : Sample) (mem : List Sample) (numSamples : Nat)
    (c : ScopeDataCollector) (index pos : Nat) : Option (ScopeDataCollector × Nat × Nat) :=
  if h : index < numSamples then
    match mem[pos]? with
    | none => none
    | some currentSample =>
      if currentSample ≥ tl ∧ c.prevSample < tl then
        some ({ c with numCollected := 0, state := .collecting }, index + 1, pos + 1)
      else
        waitLoopAt tl mem numSamples { c with prevSample := currentSample } (index + 1)
          (pos + 1)
  else
    some (c, index + 1, pos)
termination_by numSamples - index

/-- The second loop of `process` with its counter `index` and the read position `pos`:
`buffer[numCollected++] = *data++`.  A read outside `mem` and a write outside `buffer`
give `none`.  The result is the collector and the blocks passed to `push`. -/
def collectLoopAt (bs : Nat) (mem : List Sample) (numSamples : Nat)
    (c : ScopeDataCollector) (index pos : Nat) :
    Option (ScopeDataCollector × List (List Sample)) :=
  if _h : index < numSamples then
    match mem[pos]? with
    | none => none
    | some sample =>
      if c.numCollected < c.buffer.length then
        let c1 := { c with buffer := c.buffer.set c.numCollected sample,
                           numCollected := c.numCollected + 1 }
        if c1.numCollected = c1.buffer.length then
          some ({ c1 with audioBufferQueue := c1.audioBufferQueue.push bs c1.buffer,
                          state := .waitingForTrigger, prevSample := 100 }, [c1.buffer])
        else
          collectLoopAt bs mem numSamples c1 (index + 1) (pos + 1)
      else
        none
  else
    some (c, [])
termination_by numSamples - index

/-- The method `ScopeDataCollector::process (data, numSamples)` on the level of indices:
`mem` is the region that `data` points to, which need not have `numSamples` samples.  The
result is `none` when the call reads outside `mem` or writes outside `buffer`. -/
def processAt (tl : Sample) (bs : Nat) (c : ScopeDataCollector) (mem : List Sample)
    (numSamples : Nat) : Option (ScopeDataCollector × List (List Sample)) :=
  let first :=
    if c.state = .waitingForTrigger then waitLoopAt tl mem numSamples c 0 0
    else some (c, 0, 0)
  match first with
  | none => none
  | some (c1, index, pos) =>
    if c1.state = .collecting then collectLoopAt bs mem numSamples c1 index pos
    else some (c1, [])

/-- The collectors that arise from a freshly constructed collector, whose block in
progress has `bs` samples, by calls of `process` on any chunks, while the queue it refers
to may be changed by its reader in between. -/
inductive Reachable (tl : Sample) (bs : Nat) : ScopeDataCollector → Prop where
  | create (queueToUse : AudioBufferQueue) (buffer : List Sample) :
      buffer.length = bs → Reachable tl bs (create queueToUse buffer)
  | process {c : ScopeDataCollector} (data : List Sample) :
      Reachable tl bs c → Reachable tl bs (process tl bs c data).1
  | queue {c : ScopeDataCollector} (q : AudioBufferQueue) :
      Reachable tl bs c → Reachable tl bs { c with audioBufferQueue := q }

end ScopeDataCollector

/-! ## Example states -/

/-- A queue with four unread blocks: the fifo grants no further slot. -/
def AudioBufferQueue.fullQueue : AudioBufferQueue :=
  { abstractFifo := { bufferSize := 5, validStart := 0, validEnd := 4 }
    buffers := [taggedBlock 1, taggedBlock 2, taggedBlock 3, taggedBlock 4, taggedBlock 0] }

/-- A collector in state `collecting` that has one sample left to collect. -/
def ScopeDataCollector.almostFull : ScopeDataCollector :=
  { audioBufferQueue := AudioBufferQueue.create AudioBufferQueue.bufferSize
      AudioBufferQueue.numBuffers
    buffer := taggedBlock 3, numCollected := 511, prevSample := 0, state := .collecting }

/-- A stream with two captures, cut so that the first chunk goes one sample past the end
of the first block. -/
def ScopeDataCollector.cutPastBlock : List (List Sample) :=
  [(0 :: 1 :: taggedBlock 2) ++ [0], 1 :: taggedBlock 3]

/-- The same stream, cut at the end of the first block. -/
def ScopeDataCollector.cutAtBlock : List (List Sample) :=
  [0 :: 1 :: taggedBlock 2, 0 :: 1 :: taggedBlock 3]

/-! ## The fifo on valid states -/

namespace AbstractFifo

theorem getNumReady_nonneg {f : AbstractFifo} (hf : f.Valid) : 0 ≤ f.getNumReady := by
  obtain ⟨h0, h1, h2, h3, h4⟩ := hf
  unfold getNumReady
  simp only
  split_ifs <;> omega

theorem getNumReady_lt {f : AbstractFifo} (hf : f.Valid) : f.getNumReady < f.bufferSize := by
  obtain ⟨h0, h1, h2, h3, h4⟩ := hf
  unfold getNumReady
  simp only
  split_ifs <;> omega

theorem prepareToWrite_room {f : AbstractFifo} (hf : f.Valid)
    (h : f.getNumReady + 1 < f.bufferSize) :
    f.prepareToWrite 1 =
      { startIndex1 := f.validEnd, blockSize1 := 1, startIndex2 := 0, blockSize2 := 0 } := by
  obtain ⟨h0, h1, h2, h3, h4⟩ := hf
  unfold getNumReady at h
  simp only at h
  unfold prepareToWrite
  simp only [min_def]
  split_ifs at h ⊢ <;> simp only [FifoBlocks.mk.injEq, true_and, and_true, and_self] <;> omega

theorem prepareToWrite_full {f : AbstractFifo} (hf : f.Valid)
    (h : f.bufferSize ≤ f.getNumReady + 1) :
    f.prepareToWrite 1 =
      { startIndex1 := 0, blockSize1 := 0, startIndex2 := 0, blockSize2 := 0 } := by
  obtain ⟨h0, h1, h2, h3, h4⟩ := hf
  unfold getNumReady at h
  simp only at h
  unfold prepareToWrite
  simp only [min_def]
  split_ifs at h ⊢ <;> simp only [FifoBlocks.mk.injEq, true_and, and_true, and_self] <;> omega

theorem prepareToRead_ready {f : AbstractFifo} (hf : f.Valid) (h : 0 < f.getNumReady) :
    f.prepareToRead 1 =
      { startIndex1 := f.validStart, blockSize1 := 1, startIndex2 := 0, blockSize2 := 0 } := by
  obtain ⟨h0, h1, h2, h3, h4⟩ := hf
  unfold getNumReady at h
  simp only at h
  unfold prepareToRead
  simp only [min_def]
  split_ifs at h ⊢ <;> simp only [FifoBlocks.mk.injEq, true_and, and_true, and_self] <;> omega

theorem prepareToRead_empty {f : AbstractFifo} (hf : f.Valid) (h : f.getNumReady ≤ 0) :
    f.prepareToRead 1 =
      { startIndex1 := 0, blockSize1 := 0, startIndex2 := 0, blockSize2 := 0 } := by
  obtain ⟨h0, h1, h2, h3, h4⟩ := hf
  unfold getNumReady at h
  simp only at h
  unfold prepareToRead
  simp only [min_def]
  split_ifs at h ⊢ <;> simp only [FifoBlocks.mk.injEq, true_and, and_true, and_self] <;> omega

theorem finishedWrite_zero {f : AbstractFifo} (hf : f.Valid) : f.finishedWrite 0 = f := by
  obtain ⟨h0, h1, h2, h3, h4⟩ := hf
  cases f
  simp only [finishedWrite, add_zero, mk.injEq, true_and] at *
  split_ifs <;> omega

theorem finishedRead_zero {f : AbstractFifo} (hf : f.Valid) : f.finishedRead 0 = f := by
  obtain ⟨h0, h1, h2, h3, h4⟩ := hf
  cases f
  simp only [finishedRead, add_zero, mk.injEq, true_and, and_true] at *
  split_ifs <;> omega

end AbstractFifo

/-! ## The queue on valid states -/

namespace AudioBufferQueue

theorem copy_length {bs : Nat} {old d : List Sample} (h : old.length = bs) :
    (FloatVectorOperations.copy old d (min bs d.length)).length = bs := by
  simp only [FloatVectorOperations.copy, List.length_append, List.length_take,
    List.length_drop, h]
  omega

theorem copy_full {bs : Nat} {old d : List Sample} (h : old.length = bs)
    (hd : d.length = bs) : FloatVectorOperations.copy old d (min bs d.length) = d := by
  simp [FloatVectorOperations.copy, hd, ← h]

theorem getD_length {bs nb : Nat} {q : AudioBufferQueue} (hq : q.Valid bs nb) {i : Nat}
    (hi : i < nb) : (q.buffers.getD i []).length = bs := by
  obtain ⟨_, _, hlen, hall⟩ := hq
  have hi2 : i < q.buffers.length := by omega
  rw [List.getD_eq_getElem _ _ hi2]
  exact hall _ (List.getElem_mem _)

theorem valid_create (bs nb : Nat) (h : 0 < nb) : (create bs nb).Valid bs nb := by
  refine ⟨?_, rfl, by simp [create], ?_⟩
  · simp only [AbstractFifo.Valid, create, AbstractFifo.create]
    omega
  · intro b hb
    simp only [create] at hb
    rw [List.eq_of_mem_replicate hb]
    simp

theorem holds_create (bs nb : Nat) (h : 0 < nb) : (create bs nb).Holds bs nb [] := by
  refine ⟨valid_create bs nb h, ?_, ?_⟩
  · simp [create, AbstractFifo.create, AbstractFifo.getNumReady]
  · intro i hi
    simp at hi

theorem valid_push {bs nb : Nat} {q : AudioBufferQueue} (hq : q.Valid bs nb)
    (d : List Sample) : (q.push bs d).Valid bs nb := by
  have hq0 := hq
  obtain ⟨hf, hcap, hlen, hall⟩ := hq
  have hf0 := hf
  obtain ⟨h0, h1, h2, h3, h4⟩ := hf
  by_cases hroom : q.abstractFifo.getNumReady + 1 < q.abstractFifo.bufferSize
  · have hw := AbstractFifo.prepareToWrite_room hf0 hroom
    refine ⟨?_, ?_, ?_, ?_⟩
    · simp only [push, hw, AbstractFifo.Valid, AbstractFifo.finishedWrite]
      split_ifs <;> omega
    · simpa [push, AbstractFifo.finishedWrite] using hcap
    · simpa [push, hw] using hlen
    · intro b hb
      simp only [push, hw, gt_iff_lt, zero_lt_one, if_true] at hb
      rcases List.mem_or_eq_of_mem_set hb with hb | hb
      · exact hall b hb
      · rw [hb]
        exact copy_length (getD_length hq0 (by omega))
  · have hw := AbstractFifo.prepareToWrite_full hf0 (by omega)
    have : q.push bs d = q := by
      cases q
      simp only [push, hw, AbstractFifo.finishedWrite_zero hf0]
      simp
    rw [this]
    exact hq0

theorem valid_pop {bs nb : Nat} {q : AudioBufferQueue} (hq : q.Valid bs nb)
    (o : List Sample) : (q.pop bs o).1.Valid bs nb := by
  obtain ⟨hf, hcap, hlen, hall⟩ := hq
  have hf0 := hf
  obtain ⟨h0, h1, h2, h3, h4⟩ := hf
  refine ⟨?_, ?_, hlen, hall⟩
  · by_cases hr : 0 < q.abstractFifo.getNumReady
    · simp only [pop, AbstractFifo.prepareToRead_ready hf0 hr, AbstractFifo.Valid,
        AbstractFifo.finishedRead]
      split_ifs <;> omega
    · simp only [pop, AbstractFifo.prepareToRead_empty hf0 (by omega),
        AbstractFifo.finishedRead_zero hf0]
      exact hf0
  · simpa [pop, AbstractFifo.finishedRead] using hcap

end AudioBufferQueue

namespace AudioBufferQueue

theorem holds_length_lt {bs nb : Nat} {q : AudioBufferQueue} {p : List (List Sample)}
    (h : q.Holds bs nb p) : p.length < nb := by
  obtain ⟨⟨hf, hcap, _, _⟩, hn, _⟩ := h
  have := AbstractFifo.getNumReady_lt hf
  omega

theorem push_full (bs : Nat) {q : AudioBufferQueue} (hf : q.abstractFifo.Valid)
    (hfull : q.abstractFifo.getFreeSpace ≤ 0) (d : List Sample) :
    q.pushAccepted = false ∧ q.push bs d = q := by
  have hw := AbstractFifo.prepareToWrite_full hf
    (by unfold AbstractFifo.getFreeSpace at hfull; omega)
  constructor
  · simp [pushAccepted, hw]
  · cases q
    simp only [push, hw, AbstractFifo.finishedWrite_zero hf]
    simp

theorem push_room {bs nb : Nat} {q : AudioBufferQueue} {p : List (List Sample)}
    (h : q.Holds bs nb p) (hroom : p.length + 1 < nb) (d : List Sample) :
    q.pushAccepted = true ∧
      (q.push bs d).Holds bs nb
        (p ++ [FloatVectorOperations.copy (q.buffers.getD q.abstractFifo.validEnd.toNat [])
          d (min bs d.length)]) := by
  have hv := valid_push h.1 d
  obtain ⟨hq, hn, hslots⟩ := h
  obtain ⟨hf, hcap, hlen, hall⟩ := hq
  have hf0 := hf
  obtain ⟨h0, h1, h2, h3, h4⟩ := hf
  have hw := AbstractFifo.prepareToWrite_room hf0 (by omega)
  have hnr := hn
  unfold AbstractFifo.getNumReady at hnr
  simp only at hnr
  refine ⟨by simp [pushAccepted, hw], hv, ?_, ?_⟩
  · simp only [push, hw, AbstractFifo.finishedWrite, AbstractFifo.getNumReady,
      List.length_append, List.length_singleton]
    push_cast
    split_ifs at hnr ⊢ <;> omega
  · intro i hi
    simp only [List.length_append, List.length_singleton] at hi
    simp only [push, hw, gt_iff_lt, zero_lt_one, if_true, slotIndex,
      AbstractFifo.finishedWrite]
    by_cases hip : i < p.length
    · have hne : q.abstractFifo.validEnd.toNat ≠ q.slotIndex i := by
        unfold slotIndex
        simp only
        split_ifs at hnr ⊢ <;> omega
      have := hslots i hip
      unfold slotIndex at this hne
      simp only at this hne
      rw [List.getElem?_set_ne hne, this, List.getElem?_append_left hip]
    · have hi2 : i = p.length := by omega
      have heq : q.slotIndex i = q.abstractFifo.validEnd.toNat := by
        unfold slotIndex
        simp only
        split_ifs at hnr ⊢ <;> omega
      unfold slotIndex at heq
      simp only at heq
      rw [heq, List.getElem?_set_self (by omega), hi2]
      simp

theorem pop_empty (bs : Nat) {q : AudioBufferQueue} (hf : q.abstractFifo.Valid)
    (hempty : q.abstractFifo.getNumReady ≤ 0) (o : List Sample) :
    q.popFound = false ∧ q.pop bs o = (q, o) := by
  have hr := AbstractFifo.prepareToRead_empty hf hempty
  constructor
  · simp [popFound, hr]
  · simp only [pop, hr, AbstractFifo.finishedRead_zero hf]
    simp

theorem pop_cons {bs nb : Nat} {q : AudioBufferQueue} {x : List Sample}
    {p : List (List Sample)} (h : q.Holds bs nb (x :: p)) (o : List Sample) :
    q.popFound = true ∧ (q.pop bs o).2 = x ++ o.drop bs ∧ (q.pop bs o).1.Holds bs nb p := by
  have hv := valid_pop h.1 o
  obtain ⟨hq, hn, hslots⟩ := h
  have hq0 := hq
  obtain ⟨hf, hcap, hlen, hall⟩ := hq
  have hf0 := hf
  obtain ⟨h0, h1, h2, h3, h4⟩ := hf
  simp only [List.length_cons] at hn hslots
  have hr := AbstractFifo.prepareToRead_ready hf0 (by omega)
  have hnr := hn
  unfold AbstractFifo.getNumReady at hnr
  simp only at hnr
  have hx : q.buffers[q.abstractFifo.validStart.toNat]? = some x := by
    have := hslots 0 (by omega)
    simp only [slotIndex, Nat.cast_zero, add_zero, List.getElem?_cons_zero] at this
    rw [if_neg (by omega)] at this
    exact this
  have hxd : q.buffers.getD q.abstractFifo.validStart.toNat [] = x := by
    rw [List.getD_eq_getElem?_getD, hx]
    rfl
  have hxl : x.length = bs := by
    rw [← hxd]
    exact getD_length hq0 (by omega)
  refine ⟨by simp [popFound, hr], ?_, hv, ?_, ?_⟩
  · simp only [pop, hr, gt_iff_lt, zero_lt_one, if_true, hxd, FloatVectorOperations.copy]
    rw [List.take_of_length_le (by omega)]
  · simp only [pop, hr, AbstractFifo.finishedRead, AbstractFifo.getNumReady]
    split_ifs at hnr ⊢ <;> omega
  · intro i hi
    have := hslots (i + 1) (by omega)
    simp only [List.getElem?_cons_succ] at this
    rw [← this]
    congr 1
    simp only [pop, hr, slotIndex, AbstractFifo.finishedRead]
    push_cast
    split_ifs at hnr ⊢ <;> omega

theorem holds_unread {bs nb : Nat} {q : AudioBufferQueue} {p : List (List Sample)}
    (h : q.Holds bs nb p) : q.unread = p := by
  obtain ⟨hq, hn, hslots⟩ := h
  have hlen : q.unread.length = p.length := by
    simp only [unread, List.length_map, List.length_range]
    omega
  apply List.ext_getElem?
  intro i
  by_cases hi : i < p.length
  · have h1 : i < q.abstractFifo.getNumReady.toNat := by omega
    have h2 := hslots i hi
    rw [List.getElem?_eq_getElem hi] at h2
    simp only [unread, List.getElem?_map, List.getElem?_range h1, Option.map_some',
      List.getD_eq_getElem?_getD, h2, Option.getD_some]
    rw [List.getElem?_eq_getElem hi]
  · rw [List.getElem?_eq_none (by omega), List.getElem?_eq_none (by omega)]

end AudioBufferQueue

/-! ## Runs on valid states -/

namespace AudioBufferQueue

theorem holds_mem_length {bs nb : Nat} {q : AudioBufferQueue} {p : List (List Sample)}
    (h : q.Holds bs nb p) : ∀ b ∈ p, b.length = bs := by
  intro b hb
  obtain ⟨i, hi, rfl⟩ := List.getElem_of_mem hb
  obtain ⟨⟨_, _, _, hall⟩, _, hslots⟩ := h
  have h2 := hslots i hi
  rw [List.getElem?_eq_getElem hi] at h2
  obtain ⟨hj, hje⟩ := List.getElem?_eq_some_iff.mp h2
  rw [← hje]
  exact hall _ (List.getElem_mem _)

theorem push_room_full {bs nb : Nat} {q : AudioBufferQueue} {p : List (List Sample)}
    (h : q.Holds bs nb p) (hroom : p.length + 1 < nb) {d : List Sample}
    (hd : d.length = bs) :
    q.pushAccepted = true ∧ (q.push bs d).Holds bs nb (p ++ [d]) := by
  have h1 := push_room h hroom d
  have hve : q.abstractFifo.validEnd.toNat < nb := by
    obtain ⟨⟨⟨_, _, _, _, _⟩, hcap, _, _⟩, _, _⟩ := h
    omega
  rw [copy_full (getD_length h.1 hve) hd] at h1
  exact h1

theorem push_no_room {bs nb : Nat} {q : AudioBufferQueue} {p : List (List Sample)}
    (h : q.Holds bs nb p) (hroom : ¬ p.length + 1 < nb) (d : List Sample) :
    q.pushAccepted = false ∧ q.push bs d = q := by
  apply push_full bs h.1.1
  have := h.2.1
  have := h.1.2.1
  unfold AbstractFifo.getFreeSpace
  omega

theorem pop_nil {bs nb : Nat} {q : AudioBufferQueue} (h : q.Holds bs nb [])
    (o : List Sample) : q.popFound = false ∧ q.pop bs o = (q, o) := by
  apply pop_empty bs h.1.1
  have := h.2.1
  simp only [List.length_nil, Nat.cast_zero] at this
  omega

theorem pop_cons_take {bs nb : Nat} {q : AudioBufferQueue} {x : List Sample}
    {p : List (List Sample)} (h : q.Holds bs nb (x :: p)) (o : List Sample) :
    ((q.pop bs o).2).take bs = x := by
  have hx : x.length = bs := holds_mem_length h x (List.mem_cons_self _ _)
  rw [(pop_cons h o).2.1, List.take_append_of_le_length (by omega),
    List.take_of_length_le (by omega)]

/-- The simulation of a run by the list of unread blocks: what was unread plus what was
accepted is what was delivered plus what is still unread; and when the count of unread
blocks stays below `nb - 1` at every push, every push is accepted. -/
theorem run_sim (bs nb : Nat) (ops : List QueueOp) :
    ∀ (q : AudioBufferQueue) (p : List (List Sample)), q.Holds bs nb p → fullLength bs ops →
      ∃ p', (q.run bs ops).1.Holds bs nb p' ∧
        p ++ acceptedBlocks (q.run bs ops).2 = deliveredBlocks bs (q.run bs ops).2 ++ p' ∧
        (roomAtEveryPush (nb - 1) p.length ops →
          acceptedBlocks (q.run bs ops).2 = pushedBlocks ops) := by
  induction ops with
  | nil =>
    intro q p h _
    exact ⟨p, h, by simp [run, acceptedBlocks, deliveredBlocks],
      fun _ => by simp [run, acceptedBlocks, pushedBlocks]⟩
  | cons op ops ih =>
    intro q p h hfl
    cases op with
    | push d =>
      obtain ⟨hd, hfl⟩ := hfl
      by_cases hroom : p.length + 1 < nb
      · obtain ⟨hacc, hh⟩ := push_room_full h hroom hd
        obtain ⟨p', hp', heq, himp⟩ := ih _ _ hh hfl
        refine ⟨p', by simpa [run, step] using hp', ?_, ?_⟩
        · simp only [run, step, hacc, acceptedBlocks, deliveredBlocks]
          rw [← heq]
          simp
        · intro hr
          obtain ⟨_, hr⟩ := hr
          simp only [run, step, hacc, acceptedBlocks, pushedBlocks]
          rw [himp (by simpa using hr)]
      · obtain ⟨hacc, hq⟩ := push_no_room h hroom d
        obtain ⟨p', hp', heq, _⟩ := ih _ _ h hfl
        refine ⟨p', by simpa [run, step, hq] using hp', ?_, ?_⟩
        · simpa only [run, step, hacc, hq, acceptedBlocks, deliveredBlocks] using heq
        · intro hr
          obtain ⟨hr, _⟩ := hr
          omega
    | pop o =>
      cases p with
      | nil =>
        obtain ⟨hf, hq⟩ := pop_nil h o
        obtain ⟨p', hp', heq, himp⟩ := ih _ _ h hfl
        refine ⟨p', by simpa [run, step, hq] using hp', ?_, ?_⟩
        · simpa only [run, step, hf, hq, acceptedBlocks, deliveredBlocks] using heq
        · intro hr
          simp only [run, step, hq, acceptedBlocks, pushedBlocks]
          exact himp hr
      | cons x p =>
        obtain ⟨hf, _, hh⟩ := pop_cons h o
        have htake := pop_cons_take h o
        obtain ⟨p', hp', heq, himp⟩ := ih _ _ hh hfl
        refine ⟨p', by simpa [run, step] using hp', ?_, ?_⟩
        · simp only [run, step, hf, acceptedBlocks, deliveredBlocks, htake]
          rw [List.cons_append, heq, List.cons_append]
        · intro hr
          simp only [run, step, acceptedBlocks, pushedBlocks]
          exact himp (by simpa [roomAtEveryPush] using hr)

theorem run_append (bs : Nat) (a b : List QueueOp) (q : AudioBufferQueue) :
    q.run bs (a ++ b) = (((q.run bs a).1).run bs b |>.1,
      (q.run bs a).2 ++ (((q.run bs a).1).run bs b).2) := by
  induction a generalizing q with
  | nil => simp [run]
  | cons op a ih => simp [run, ih]

theorem acceptedBlocks_append (a b : List QueueEvent) :
    acceptedBlocks (a ++ b) = acceptedBlocks a ++ acceptedBlocks b := by
  induction a with
  | nil => simp [acceptedBlocks]
  | cons e a ih =>
    cases e with
    | pushed acc d => cases acc <;> simp [acceptedBlocks, ih]
    | popped f o => simp [acceptedBlocks, ih]

theorem deliveredBlocks_append (bs : Nat) (a b : List QueueEvent) :
    deliveredBlocks bs (a ++ b) = deliveredBlocks bs a ++ deliveredBlocks bs b := by
  induction a with
  | nil => simp [deliveredBlocks]
  | cons e a ih =>
    cases e with
    | pushed acc d => simp [deliveredBlocks, ih]
    | popped f o => cases f <;> simp [deliveredBlocks, ih]

/-- Popping at least as often as there are unread blocks delivers them all, in order, and
leaves the queue empty. -/
theorem run_pops (bs nb : Nat) (dests : List (List Sample)) :
    ∀ (q : AudioBufferQueue) (p : List (List Sample)), q.Holds bs nb p →
      p.length ≤ dests.length →
      deliveredBlocks bs (q.run bs (dests.map QueueOp.pop)).2 = p ∧
        (q.run bs (dests.map QueueOp.pop)).1.Holds bs nb [] := by
  induction dests with
  | nil =>
    intro q p h hl
    have : p = [] := List.eq_nil_of_length_eq_zero (by simpa using hl)
    subst this
    exact ⟨by simp [run, deliveredBlocks], by simpa [run] using h⟩
  | cons o dests ih =>
    intro q p h hl
    cases p with
    | nil =>
      obtain ⟨hf, hq⟩ := pop_nil h o
      obtain ⟨h1, h2⟩ := ih q [] h (by simp)
      exact ⟨by simpa [run, step, hf, hq, deliveredBlocks] using h1,
        by simpa [run, step, hq] using h2⟩
    | cons x p =>
      obtain ⟨hf, _, hh⟩ := pop_cons h o
      have htake := pop_cons_take h o
      obtain ⟨h1, h2⟩ := ih _ p hh (by simpa using hl)
      exact ⟨by simp [run, step, hf, deliveredBlocks, htake, h1],
        by simpa [run, step] using h2⟩

end AudioBufferQueue

/-! ## The collector's loops -/

namespace ScopeDataCollector

theorem process_waiting (tl : Sample) (bs : Nat) {c : ScopeDataCollector}
    (h : c.state = .waitingForTrigger) (data : List Sample) :
    process tl bs c data =
      if (waitLoop tl c data).1.state = .collecting then
        collectLoop bs (waitLoop tl c data).1 (waitLoop tl c data).2
      else ((waitLoop tl c data).1, []) := by
  simp [process, h]

theorem process_collecting (tl : Sample) (bs : Nat) {c : ScopeDataCollector}
    (h : c.state = .collecting) (data : List Sample) :
    process tl bs c data = collectLoop bs c data := by
  simp [process, h]

theorem process_nil (tl : Sample) (bs : Nat) (c : ScopeDataCollector) :
    process tl bs c [] = (c, []) := by
  cases hs : c.state <;> simp [process, hs, waitLoop, collectLoop]

/-- While no sample reaches the trigger level the first loop consumes everything and
stays in its state. -/
theorem waitLoop_below (tl : Sample) (a : List Sample) :
    ∀ (c : ScopeDataCollector), (∀ x ∈ a, x < tl) →
      (waitLoop tl c a).1.state = c.state ∧ (waitLoop tl c a).2 = [] ∧
        (waitLoop tl c a).1.audioBufferQueue = c.audioBufferQueue ∧
        (waitLoop tl c a).1.buffer = c.buffer ∧
        (waitLoop tl c a).1.numCollected = c.numCollected ∧
        (waitLoop tl c a).1.prevSample = (a.getLast?).getD c.prevSample := by
  induction a with
  | nil => intro c _; simp [waitLoop]
  | cons x a ih =>
    intro c h
    have hx : ¬ (x ≥ tl ∧ c.prevSample < tl) := by
      have := h x (List.mem_cons_self _ _)
      intro hc
      exact absurd hc.1 (not_le.mpr this)
    have := ih { c with prevSample := x } (fun y hy => h y (List.mem_cons_of_mem _ hy))
    simp only [waitLoop, hx, if_false]
    refine ⟨this.1, this.2.1, this.2.2.1, this.2.2.2.1, this.2.2.2.2.1, ?_⟩
    rw [this.2.2.2.2.2]
    cases a with
    | nil => simp
    | cons y a => simp [List.getLast?_cons]

/-- The first loop either finds a trigger, or consumes everything and stays waiting. -/
theorem waitLoop_append (tl : Sample) (a b : List Sample) :
    ∀ (c : ScopeDataCollector), c.state = .waitingForTrigger →
      ((waitLoop tl c a).1.state = .collecting ∧
          waitLoop tl c (a ++ b) = ((waitLoop tl c a).1, (waitLoop tl c a).2 ++ b)) ∨
        ((waitLoop tl c a).1.state = .waitingForTrigger ∧ (waitLoop tl c a).2 = [] ∧
          waitLoop tl c (a ++ b) = waitLoop tl (waitLoop tl c a).1 b) := by
  induction a with
  | nil => intro c h; right; simp [waitLoop, h]
  | cons x a ih =>
    intro c h
    by_cases hx : x ≥ tl ∧ c.prevSample < tl
    · left
      simp [waitLoop, hx]
    · have := ih { c with prevSample := x } h
      simpa only [waitLoop, hx, if_false, List.cons_append] using this

theorem take_succ_set (l : List Sample) (n : Nat) (x : Sample) (h : n < l.length) :
    (l.set n x).take (n + 1) = l.take n ++ [x] := by
  rw [List.set_eq_take_append_cons_drop, if_pos h, List.take_append_eq_append_take]
  simp [List.length_take, Nat.min_eq_left (le_of_lt h)]

theorem set_last (l : List Sample) (n : Nat) (x : Sample) (h : n + 1 = l.length) :
    l.set n x = l.take n ++ [x] := by
  rw [List.set_eq_take_append_cons_drop, if_pos (by omega),
    List.drop_of_length_le (by omega)]

/-- The second loop on fewer samples than are missing from the block: they are stored,
nothing is pushed. -/
theorem collectLoop_short (bs : Nat) (a : List Sample) :
    ∀ (c : ScopeDataCollector), c.numCollected + a.length < c.buffer.length →
      collectLoop bs c a =
        ({ c with buffer := c.buffer.take c.numCollected ++ a ++
                    c.buffer.drop (c.numCollected + a.length),
                  numCollected := c.numCollected + a.length }, []) := by
  induction a with
  | nil => intro c _; simp [collectLoop]
  | cons x a ih =>
    intro c h
    simp only [List.length_cons] at h
    have hne : ¬ c.numCollected + 1 = c.buffer.length := by omega
    simp only [collectLoop, List.length_set, hne, if_false]
    rw [ih _ (by simp only [List.length_set]; omega)]
    simp only [Prod.mk.injEq, and_true, List.length_cons]
    have h1 := take_succ_set c.buffer c.numCollected x (by omega)
    have h2 : (c.buffer.set c.numCollected x).drop (c.numCollected + 1 + a.length) =
        c.buffer.drop (c.numCollected + (a.length + 1)) := by
      rw [List.drop_set_of_lt _ _ (by omega)]
      congr 1
      omega
    rw [h1, h2]
    simp [Nat.add_assoc, Nat.add_comm 1]

/-- The second loop on exactly the samples that are missing from the block: the block is
completed and pushed once. -/
theorem collectLoop_exact (bs : Nat) (a : List Sample) (c : ScopeDataCollector)
    (hlen : c.numCollected + a.length = c.buffer.length) (hne : a ≠ []) :
    collectLoop bs c a =
      ({ c with buffer := c.buffer.take c.numCollected ++ a,
                numCollected := c.buffer.length,
                audioBufferQueue :=
                  c.audioBufferQueue.push bs (c.buffer.take c.numCollected ++ a),
                state := .waitingForTrigger, prevSample := 100 },
        [c.buffer.take c.numCollected ++ a]) := by
  obtain ⟨a0, x, rfl⟩ : ∃ a0 x, a = a0 ++ [x] := by
    refine ⟨a.dropLast, a.getLast hne, ?_⟩
    exact (List.dropLast_append_getLast hne).symm
  simp only [List.length_append, List.length_singleton] at hlen
  clear hne
  induction a0 generalizing c with
  | nil =>
    simp only [List.length_nil, zero_add] at hlen
    have h1 := set_last c.buffer c.numCollected x hlen
    simp only [List.nil_append, collectLoop]
    rw [if_pos (by simp only [List.length_set]; exact hlen)]
    simp only [h1, hlen]
  | cons y a0 ih =>
    simp only [List.length_cons] at hlen
    have hne : ¬ c.numCollected + 1 = c.buffer.length := by omega
    rw [List.cons_append]
    simp only [collectLoop, List.length_set, hne, if_false]
    rw [ih _ (by simp only [List.length_set]; omega)]
    have h1 := take_succ_set c.buffer c.numCollected y (by omega)
    simp [h1]

/-- The second loop, as long as it pushes nothing, can be cut anywhere. -/
theorem collectLoop_append (bs : Nat) (a b : List Sample) :
    ∀ (c : ScopeDataCollector), (collectLoop bs c a).2 = [] →
      collectLoop bs c (a ++ b) = collectLoop bs (collectLoop bs c a).1 b ∧
        (collectLoop bs c a).1.state = c.state := by
  induction a with
  | nil => intro c _; simp [collectLoop]
  | cons x a ih =>
    intro c h
    by_cases hfull : c.numCollected + 1 = (c.buffer.set c.numCollected x).length
    · simp [collectLoop, hfull] at h
    · simp only [collectLoop, hfull, if_false] at h
      simp only [List.cons_append, collectLoop, hfull, if_false]
      exact ih _ h

end ScopeDataCollector

/-! ## Calls of `process` and chunked streams -/

namespace ScopeDataCollector

/-- A call that pushes nothing can be merged with the call that follows it. -/
theorem process_append (tl : Sample) (bs : Nat) (c : ScopeDataCollector)
    (a b : List Sample) (h : (process tl bs c a).2 = []) :
    process tl bs c (a ++ b) = process tl bs (process tl bs c a).1 b := by
  cases hs : c.state with
  | collecting =>
    rw [process_collecting tl bs hs] at h ⊢
    obtain ⟨heq, hst⟩ := collectLoop_append bs a b c h
    rw [process_collecting tl bs hs, process_collecting tl bs (hst.trans hs), heq]
  | waitingForTrigger =>
    rw [process_waiting tl bs hs] at h ⊢
    rcases waitLoop_append tl a b c hs with ⟨hst, heq⟩ | ⟨hst, hnil, heq⟩
    · rw [if_pos hst] at h
      obtain ⟨hceq, hcst⟩ := collectLoop_append bs (waitLoop tl c a).2 b _ h
      rw [process_waiting tl bs hs, heq, if_pos hst, if_pos hst, hceq,
        process_collecting tl bs (hcst.trans hst)]
    · have hne : ¬ (waitLoop tl c a).1.state = .collecting := by
        rw [hst]; decide
      rw [process_waiting tl bs hs, heq, if_neg hne, process_waiting tl bs hst]

theorem feed_of_flatten_nil (tl : Sample) (bs : Nat) (chunks : List (List Sample)) :
    ∀ (c : ScopeDataCollector), chunks.flatten = [] → feed tl bs c chunks = (c, []) := by
  induction chunks with
  | nil => intro c _; rfl
  | cons ch chunks ih =>
    intro c h
    simp only [List.flatten_cons, List.append_eq_nil] at h
    obtain ⟨h1, h2⟩ := h
    subst h1
    simp [feed, process_nil, ih c h2]

/-- When no proper prefix of the stream makes `process` push, feeding the stream in
chunks does what one call on the whole stream does. -/
theorem feed_eq_process (tl : Sample) (bs : Nat) (chunks : List (List Sample)) :
    ∀ (c : ScopeDataCollector),
      (∀ a b, chunks.flatten = a ++ b → b ≠ [] → (process tl bs c a).2 = []) →
      feed tl bs c chunks = process tl bs c chunks.flatten := by
  induction chunks with
  | nil => intro c _; simp [feed, process_nil]
  | cons ch chunks ih =>
    intro c h
    by_cases hrest : chunks.flatten = []
    · simp [feed, feed_of_flatten_nil tl bs chunks _ hrest, hrest]
    · have h0 : (process tl bs c ch).2 = [] := h ch chunks.flatten (by simp) hrest
      have hpa := process_append tl bs c ch chunks.flatten h0
      have hih := ih (process tl bs c ch).1 (by
        intro a b hab hb
        have h1 := h (ch ++ a) b (by simp [hab]) hb
        have h2 := process_append tl bs c ch a h0
        rw [h2] at h1
        exact h1)
      simp only [feed, List.flatten_cons, h0, List.nil_append, hih, hpa]

end ScopeDataCollector

/-! ## Pushes without pops, and reachable states -/

namespace AudioBufferQueue

/-- A run of full-length pushes only: the blocks are accepted until `nb - 1` blocks are
unread, and the later ones are dropped. -/
theorem run_pushes (bs nb : Nat) (blocks : List (List Sample)) :
    ∀ (q : AudioBufferQueue) (p : List (List Sample)), q.Holds bs nb p →
      (∀ b ∈ blocks, b.length = bs) →
      (q.run bs (blocks.map QueueOp.push)).1.Holds bs nb
          (p ++ blocks.take (nb - 1 - p.length)) ∧
        acceptedBlocks (q.run bs (blocks.map QueueOp.push)).2 =
          blocks.take (nb - 1 - p.length) ∧
        deliveredBlocks bs (q.run bs (blocks.map QueueOp.push)).2 = [] := by
  induction blocks with
  | nil => intro q p h _; simpa [run, acceptedBlocks, deliveredBlocks] using h
  | cons d blocks ih =>
    intro q p h hall
    have hd : d.length = bs := hall d (List.mem_cons_self _ _)
    have hall2 : ∀ b ∈ blocks, b.length = bs := fun b hb => hall b (List.mem_cons_of_mem _ hb)
    by_cases hroom : p.length + 1 < nb
    · obtain ⟨hacc, hh⟩ := push_room_full h hroom hd
      obtain ⟨h1, h2, h3⟩ := ih _ _ hh hall2
      have hk : nb - 1 - p.length = (nb - 1 - (p ++ [d]).length) + 1 := by
        simp only [List.length_append, List.length_singleton]
        omega
      rw [hk, List.take_succ_cons]
      refine ⟨by simpa [run, step] using h1, ?_, ?_⟩
      · simp only [List.map_cons, run, step, hacc, acceptedBlocks, h2]
      · simpa only [List.map_cons, run, step, deliveredBlocks] using h3
    · obtain ⟨hacc, hq⟩ := push_no_room h hroom d
      obtain ⟨h1, h2, h3⟩ := ih _ _ h hall2
      have hk : nb - 1 - p.length = 0 := by omega
      rw [hk] at h1 h2 ⊢
      simp only [List.take_zero] at h1 h2 ⊢
      refine ⟨by simpa [run, step, hq] using h1, ?_, ?_⟩
      · simpa only [List.map_cons, run, step, hacc, hq, acceptedBlocks] using h2
      · simpa only [List.map_cons, run, step, hq, deliveredBlocks] using h3

theorem acceptedBlocks_sublist (bs : Nat) (ops : List QueueOp) :
    ∀ (q : AudioBufferQueue), (acceptedBlocks (q.run bs ops).2).Sublist (pushedBlocks ops) := by
  induction ops with
  | nil => intro q; simp [run, acceptedBlocks, pushedBlocks]
  | cons op ops ih =>
    intro q
    cases op with
    | push d =>
      cases hacc : q.pushAccepted
      · simpa only [run, step, hacc, acceptedBlocks, pushedBlocks] using
          (ih _).trans (List.sublist_cons_self _ _)
      · simpa only [run, step, hacc, acceptedBlocks, pushedBlocks] using
          (ih _).cons₂ d
    | pop o => simpa only [run, step, acceptedBlocks, pushedBlocks] using ih _

theorem valid_of_reachable {bs nb : Nat} (hnb : 0 < nb) {q : AudioBufferQueue}
    (h : Reachable bs nb q) : q.Valid bs nb := by
  induction h with
  | create => exact valid_create bs nb hnb
  | push d _ ih => exact valid_push ih d
  | pop o _ ih => exact valid_pop ih o

/-- A push never touches a slot that holds an unread block. -/
theorem push_keeps_unread_slot {bs nb : Nat} {q : AudioBufferQueue} (hq : q.Valid bs nb)
    (d : List Sample) (i : Nat) (hi : (i : Int) < q.abstractFifo.getNumReady) :
    (q.push bs d).buffers[q.slotIndex i]? = q.buffers[q.slotIndex i]? := by
  obtain ⟨hf, hcap, hlen, hall⟩ := hq
  have hf0 := hf
  obtain ⟨h0, h1, h2, h3, h4⟩ := hf
  by_cases hroom : q.abstractFifo.getNumReady + 1 < q.abstractFifo.bufferSize
  · have hw := AbstractFifo.prepareToWrite_room hf0 hroom
    have hne : q.abstractFifo.validEnd.toNat ≠ q.slotIndex i := by
      unfold AbstractFifo.getNumReady at hi
      unfold slotIndex
      simp only at hi ⊢
      split_ifs at hi ⊢ <;> omega
    simp only [push, hw, gt_iff_lt, zero_lt_one, if_true]
    rw [List.getElem?_set_ne hne]
  · have hfull : q.abstractFifo.getFreeSpace ≤ 0 := by
      unfold AbstractFifo.getFreeSpace
      omega
    rw [(push_full bs hf0 hfull d).2]

theorem valid_holds_unread {bs nb : Nat} {q : AudioBufferQueue} (hq : q.Valid bs nb) :
    q.Holds bs nb q.unread := by
  have hnn := AbstractFifo.getNumReady_nonneg hq.1
  have hlt := AbstractFifo.getNumReady_lt hq.1
  have hlen : q.unread.length = q.abstractFifo.getNumReady.toNat := by
    simp [unread]
  refine ⟨hq, by omega, ?_⟩
  intro i hi
  have hi2 : i < q.abstractFifo.getNumReady.toNat := by omega
  have hidx : q.slotIndex i < q.buffers.length := by
    obtain ⟨⟨h0, h1, h2, h3, h4⟩, hcap, hl, _⟩ := hq
    unfold slotIndex
    simp only
    split_ifs <;> omega
  simp only [unread, List.getElem?_map, List.getElem?_range hi2, Option.map_some',
    List.getD_eq_getElem?_getD]
  rw [List.getElem?_eq_getElem hidx]
  rfl

end AudioBufferQueue

/-! ## The queue: delivery, overrun and underrun -/

namespace AudioBufferQueue

theorem taggedBlock_length (k : Nat) : (taggedBlock k).length = bufferSize := by
  simp [taggedBlock]

theorem holds_fresh : (create bufferSize numBuffers).Holds bufferSize numBuffers [] :=
  holds_create bufferSize numBuffers (by decide)

/-- C1, as stated, fails: five full-length pushes into a fresh queue find fewer than
`numBuffers = 5` unread blocks at every push, and yet the fifth push is dropped, because
the fifo hands out a slot only while fewer than `numBuffers - 1` blocks are unread. -/
theorem fifo_delivery_counterexample :
    fullLength bufferSize ((sevenBlocks.take 5).map QueueOp.push) ∧
      roomAtEveryPush numBuffers 0 ((sevenBlocks.take 5).map QueueOp.push) ∧
      pushedBlocks ((sevenBlocks.take 5).map QueueOp.push) = sevenBlocks.take 5 ∧
      acceptedBlocks ((create bufferSize numBuffers).run bufferSize
        ((sevenBlocks.take 5).map QueueOp.push)).2 = sevenBlocks.take 4 ∧
      acceptedBlocks ((create bufferSize numBuffers).run bufferSize
        ((sevenBlocks.take 5).map QueueOp.push)).2 ≠
          pushedBlocks ((sevenBlocks.take 5).map QueueOp.push) := by
  have hall : ∀ b ∈ sevenBlocks.take 5, b.length = bufferSize := by
    intro b hb
    simp only [sevenBlocks, List.take_succ_cons, List.take_zero, List.mem_cons,
      List.mem_singleton, List.not_mem_nil, or_false] at hb
    rcases hb with h | h | h | h | h <;> rw [h] <;> exact taggedBlock_length _
  have hacc := (run_pushes bufferSize numBuffers (sevenBlocks.take 5) _ [] holds_fresh hall).2.1
  have hpushed : pushedBlocks ((sevenBlocks.take 5).map QueueOp.push) = sevenBlocks.take 5 := by
    simp [sevenBlocks, pushedBlocks]
  refine ⟨?_, ?_, hpushed, ?_, ?_⟩
  · simp [sevenBlocks, fullLength, taggedBlock_length]
  · simp [sevenBlocks, roomAtEveryPush, numBuffers]
  · rw [hacc]
    simp [sevenBlocks, numBuffers]
  · rw [hacc, hpushed]
    intro h
    have := congrArg List.length h
    simp [sevenBlocks, numBuffers] at this

/-- C1, amended: for every sequence of full-length pushes and pops on a fresh queue in
which fewer than `numBuffers - 1` blocks are unread at the moment of every push, no push
is dropped, the blocks copied out by the pops that find a ready slot are the first pushed
blocks in push order, and popping until the queue is empty afterwards delivers the
remaining pushed blocks, in push order. -/
theorem fifo_delivery_without_loss (ops : List QueueOp) (dests : List (List Sample))
    (hfull : fullLength bufferSize ops)
    (hroom : roomAtEveryPush (numBuffers - 1) 0 ops)
    (hdests : ((create bufferSize numBuffers).run bufferSize ops).1.unread.length ≤
      dests.length) :
    acceptedBlocks ((create bufferSize numBuffers).run bufferSize ops).2 = pushedBlocks ops ∧
      deliveredBlocks bufferSize ((create bufferSize numBuffers).run bufferSize ops).2 =
        (pushedBlocks ops).take
          (deliveredBlocks bufferSize
            ((create bufferSize numBuffers).run bufferSize ops).2).length ∧
      deliveredBlocks bufferSize ((create bufferSize numBuffers).run bufferSize ops).2 ++
        deliveredBlocks bufferSize
          (((create bufferSize numBuffers).run bufferSize ops).1.run bufferSize
            (dests.map QueueOp.pop)).2 = pushedBlocks ops := by
  obtain ⟨p', hp', heq, himp⟩ := run_sim bufferSize numBuffers ops _ [] holds_fresh hfull
  have hacc := himp hroom
  rw [hacc, List.nil_append] at heq
  rw [holds_unread hp'] at hdests
  have hpops := (run_pops bufferSize numBuffers dests _ p' hp' hdests).1
  refine ⟨hacc, ?_, ?_⟩
  · rw [heq, List.take_left]
  · rw [hpops, ← heq]

/-- Witness of `fifo_delivery_without_loss`: push, push, pop, push on a fresh queue and
three pops afterwards. -/
theorem fifo_delivery_without_loss_witness :
    fullLength bufferSize
        [.push (taggedBlock 1), .push (taggedBlock 2), .pop (taggedBlock 0),
          .push (taggedBlock 3)] ∧
      roomAtEveryPush (numBuffers - 1) 0
        [.push (taggedBlock 1), .push (taggedBlock 2), .pop (taggedBlock 0),
          .push (taggedBlock 3)] ∧
      ((create bufferSize numBuffers).run bufferSize
        [.push (taggedBlock 1), .push (taggedBlock 2), .pop (taggedBlock 0),
          .push (taggedBlock 3)]).1.unread.length ≤
        [taggedBlock 0, taggedBlock 0, taggedBlock 0].length ∧
      acceptedBlocks ((create bufferSize numBuffers).run bufferSize
        [.push (taggedBlock 1), .push (taggedBlock 2), .pop (taggedBlock 0),
          .push (taggedBlock 3)]).2 =
        pushedBlocks [.push (taggedBlock 1), .push (taggedBlock 2), .pop (taggedBlock 0),
          .push (taggedBlock 3)] := by
  have hfull : fullLength bufferSize
      [.push (taggedBlock 1), .push (taggedBlock 2), .pop (taggedBlock 0),
        .push (taggedBlock 3)] := by
    simp [fullLength, taggedBlock_length]
  have hroom : roomAtEveryPush (numBuffers - 1) 0
      [.push (taggedBlock 1), .push (taggedBlock 2), .pop (taggedBlock 0),
        .push (taggedBlock 3)] := by
    simp [roomAtEveryPush, numBuffers]
  have hdests : ((create bufferSize numBuffers).run bufferSize
      [.push (taggedBlock 1), .push (taggedBlock 2), .pop (taggedBlock 0),
        .push (taggedBlock 3)]).1.unread.length ≤
      [taggedBlock 0, taggedBlock 0, taggedBlock 0].length := by
    obtain ⟨p', hp', heq, himp⟩ := run_sim bufferSize numBuffers
      [.push (taggedBlock 1), .push (taggedBlock 2), .pop (taggedBlock 0),
        .push (taggedBlock 3)] _ [] holds_fresh hfull
    rw [holds_unread hp']
    have hl := congrArg List.length heq
    have hs := (acceptedBlocks_sublist bufferSize
      [.push (taggedBlock 1), .push (taggedBlock 2), .pop (taggedBlock 0),
        .push (taggedBlock 3)] (create bufferSize numBuffers)).length_le
    simp only [List.nil_append, List.length_append, pushedBlocks, List.length_cons,
      List.length_nil] at hl hs
    simp only [List.length_cons, List.length_nil]
    omega
  exact ⟨hfull, hroom, hdests,
    (fifo_delivery_without_loss _ [taggedBlock 0, taggedBlock 0, taggedBlock 0] hfull hroom
      hdests).1⟩

end AudioBufferQueue

namespace AudioBufferQueue

/-- C2: in every queue state (cursors inside the ring) in which the fifo has no free
slot, `push` of any block leaves the whole queue state unchanged: the slots, both cursors
and with them the number of unread blocks; hence every later sequence of calls does and
delivers exactly what it would have without the push. -/
theorem overrun_drops_newest (q : AudioBufferQueue) (b : List Sample) (ops : List QueueOp)
    (hq : q.abstractFifo.Valid) (hfull : q.abstractFifo.getFreeSpace = 0) :
    q.pushAccepted = false ∧ q.push bufferSize b = q ∧
      (q.push bufferSize b).run bufferSize ops = q.run bufferSize ops := by
  obtain ⟨h1, h2⟩ := push_full bufferSize hq (le_of_eq hfull) b
  exact ⟨h1, h2, by rw [h2]⟩

/-- Witness of `overrun_drops_newest`: a queue with four unread blocks. -/
theorem overrun_drops_newest_witness :
    fullQueue.abstractFifo.Valid ∧ fullQueue.abstractFifo.getFreeSpace = 0 ∧
      fullQueue.push bufferSize (taggedBlock 5) = fullQueue :=
  ⟨by decide, by decide,
    (overrun_drops_newest fullQueue (taggedBlock 5) [] (by decide) (by decide)).2.1⟩

/-- C3, as stated, fails: after seven distinct full-length blocks are pushed into a fresh
queue, five pops deliver the blocks tagged `1` to `4` only; the block tagged `5` is not
retained. -/
theorem overrun_retention_counterexample :
    sevenBlocks.Nodup ∧ (∀ b ∈ sevenBlocks, b.length = bufferSize) ∧
      sevenBlocks.length = numBuffers + 2 ∧
      deliveredBlocks bufferSize ((create bufferSize numBuffers).run bufferSize
        (sevenBlocks.map QueueOp.push ++
          (List.replicate numBuffers (taggedBlock 0)).map QueueOp.pop)).2 =
        sevenBlocks.take 4 ∧
      deliveredBlocks bufferSize ((create bufferSize numBuffers).run bufferSize
        (sevenBlocks.map QueueOp.push ++
          (List.replicate numBuffers (taggedBlock 0)).map QueueOp.pop)).2 ≠
        sevenBlocks.take numBuffers := by
  have hall : ∀ b ∈ sevenBlocks, b.length = bufferSize := by
    intro b hb
    simp only [sevenBlocks, List.mem_cons, List.mem_singleton, List.not_mem_nil,
      or_false] at hb
    rcases hb with h | h | h | h | h | h | h <;> rw [h] <;> exact taggedBlock_length _
  have hne : ∀ i j : Nat, i ≠ j → taggedBlock i ≠ taggedBlock j := by
    intro i j hij h
    have hpos : 0 < bufferSize := by decide
    have h0 : (taggedBlock i)[0]? = (taggedBlock j)[0]? := by rw [h]
    simp only [taggedBlock, List.getElem?_replicate, hpos, if_true, Option.some.injEq,
      Nat.cast_inj] at h0
    exact hij h0
  obtain ⟨h1, h2, h3⟩ := run_pushes bufferSize numBuffers sevenBlocks _ [] holds_fresh hall
  have hpops := (run_pops bufferSize numBuffers (List.replicate numBuffers (taggedBlock 0))
    _ _ h1 (by simp [sevenBlocks, numBuffers])).1
  have hdel : deliveredBlocks bufferSize ((create bufferSize numBuffers).run bufferSize
      (sevenBlocks.map QueueOp.push ++
        (List.replicate numBuffers (taggedBlock 0)).map QueueOp.pop)).2 =
      sevenBlocks.take 4 := by
    rw [run_append, deliveredBlocks_append, h3, hpops]
    simp [sevenBlocks, numBuffers]
  refine ⟨?_, hall, by simp [sevenBlocks, numBuffers], hdel, ?_⟩
  · simp only [sevenBlocks, List.nodup_cons, List.mem_cons, List.mem_singleton,
      List.not_mem_nil, List.nodup_nil, not_or, or_false, not_false_eq_true, and_true]
    refine ⟨⟨?_, ?_, ?_, ?_, ?_, ?_⟩, ⟨?_, ?_, ?_, ?_, ?_⟩, ⟨?_, ?_, ?_, ?_⟩, ⟨?_, ?_, ?_⟩,
      ⟨?_, ?_⟩, ?_⟩ <;> exact hne _ _ (by decide)
  · rw [hdel]
    intro h
    have := congrArg List.length h
    simp [sevenBlocks, numBuffers] at this

/-- C3, amended: pushing `numBuffers + 2` full-length blocks into a fresh queue with no
pops in between and then popping repeatedly delivers exactly the first `numBuffers - 1`
of them, in order (the last three are dropped), after which a further pop finds nothing
ready and changes nothing. -/
theorem overrun_retention (blocks dests : List (List Sample)) (o : List Sample)
    (hlen : blocks.length = numBuffers + 2)
    (hfull : ∀ b ∈ blocks, b.length = bufferSize)
    (hdests : numBuffers - 1 ≤ dests.length) :
    acceptedBlocks ((create bufferSize numBuffers).run bufferSize
        (blocks.map QueueOp.push)).2 = blocks.take (numBuffers - 1) ∧
      deliveredBlocks bufferSize ((create bufferSize numBuffers).run bufferSize
        (blocks.map QueueOp.push ++ dests.map QueueOp.pop)).2 =
        blocks.take (numBuffers - 1) ∧
      ((create bufferSize numBuffers).run bufferSize
        (blocks.map QueueOp.push ++ dests.map QueueOp.pop)).1.popFound = false ∧
      ((create bufferSize numBuffers).run bufferSize
        (blocks.map QueueOp.push ++ dests.map QueueOp.pop)).1.pop bufferSize o =
        (((create bufferSize numBuffers).run bufferSize
          (blocks.map QueueOp.push ++ dests.map QueueOp.pop)).1, o) := by
  obtain ⟨h1, h2, h3⟩ := run_pushes bufferSize numBuffers blocks _ [] holds_fresh hfull
  simp only [List.length_nil, Nat.sub_zero, List.nil_append] at h1 h2
  obtain ⟨hp1, hp2⟩ := run_pops bufferSize numBuffers dests _ _ h1
    (by rw [List.length_take]; omega)
  have hq : ((create bufferSize numBuffers).run bufferSize
      (blocks.map QueueOp.push ++ dests.map QueueOp.pop)).1 =
      (((create bufferSize numBuffers).run bufferSize (blocks.map QueueOp.push)).1.run
        bufferSize (dests.map QueueOp.pop)).1 := by
    rw [run_append]
  refine ⟨h2, ?_, ?_, ?_⟩
  · rw [run_append, deliveredBlocks_append, h3, hp1, List.nil_append]
  · rw [hq]
    exact (pop_nil hp2 o).1
  · rw [hq]
    exact (pop_nil hp2 o).2

/-- Witness of `overrun_retention`: the seven tagged blocks and five pops. -/
theorem overrun_retention_witness :
    sevenBlocks.length = numBuffers + 2 ∧ (∀ b ∈ sevenBlocks, b.length = bufferSize) ∧
      numBuffers - 1 ≤ (List.replicate 5 (taggedBlock 0)).length ∧
      deliveredBlocks bufferSize ((create bufferSize numBuffers).run bufferSize
        (sevenBlocks.map QueueOp.push ++
          (List.replicate 5 (taggedBlock 0)).map QueueOp.pop)).2 =
        sevenBlocks.take (numBuffers - 1) := by
  have hall : ∀ b ∈ sevenBlocks, b.length = bufferSize := by
    intro b hb
    simp only [sevenBlocks, List.mem_cons, List.mem_singleton, List.not_mem_nil,
      or_false] at hb
    rcases hb with h | h | h | h | h | h | h <;> rw [h] <;> exact taggedBlock_length _
  exact ⟨by simp [sevenBlocks, numBuffers], hall, by simp [numBuffers],
    (overrun_retention sevenBlocks (List.replicate 5 (taggedBlock 0)) []
      (by simp [sevenBlocks, numBuffers]) hall (by simp [numBuffers])).2.1⟩

/-- C4: in every queue state (cursors inside the ring) with no unread block, `pop` into
any destination leaves every sample of the destination and the whole queue state (slots
and cursors) unchanged. -/
theorem underrun_leaves_destination (q : AudioBufferQueue) (d : List Sample)
    (hq : q.abstractFifo.Valid) (hempty : q.abstractFifo.getNumReady = 0) :
    q.popFound = false ∧ (q.pop bufferSize d).2 = d ∧ (q.pop bufferSize d).1 = q := by
  obtain ⟨h1, h2⟩ := pop_empty bufferSize hq (le_of_eq hempty) d
  exact ⟨h1, by rw [h2], by rw [h2]⟩

/-- Witness of `underrun_leaves_destination`: the fresh queue. -/
theorem underrun_leaves_destination_witness :
    (create bufferSize numBuffers).abstractFifo.Valid ∧
      (create bufferSize numBuffers).abstractFifo.getNumReady = 0 ∧
      ((create bufferSize numBuffers).pop bufferSize (taggedBlock 7)).2 = taggedBlock 7 :=
  ⟨by decide, by decide,
    (underrun_leaves_destination (create bufferSize numBuffers) (taggedBlock 7)
      (by decide) (by decide)).2.1⟩

end AudioBufferQueue

/-! ## The queue: no fabrication, block length, occupancy -/

namespace AudioBufferQueue

/-- C5: for every sequence of full-length pushes and pops on a fresh queue, dropped pushes
included, the blocks copied out by the pops that find a ready slot form an initial
segment of the blocks of the accepted pushes, in order: nothing is delivered that was not
accepted before, no accepted block is delivered twice, and there are never more
deliveries than accepted pushes.  The accepted blocks are among the pushed ones. -/
theorem no_fabrication_no_duplication (ops : List QueueOp)
    (hfull : fullLength bufferSize ops) :
    deliveredBlocks bufferSize ((create bufferSize numBuffers).run bufferSize ops).2 <+:
        acceptedBlocks ((create bufferSize numBuffers).run bufferSize ops).2 ∧
      (deliveredBlocks bufferSize
          ((create bufferSize numBuffers).run bufferSize ops).2).length ≤
        (acceptedBlocks ((create bufferSize numBuffers).run bufferSize ops).2).length ∧
      (acceptedBlocks ((create bufferSize numBuffers).run bufferSize ops).2).Sublist
        (pushedBlocks ops) := by
  obtain ⟨p', _, heq, _⟩ := run_sim bufferSize numBuffers ops _ [] holds_fresh hfull
  rw [List.nil_append] at heq
  refine ⟨⟨p', heq.symm⟩, ?_, acceptedBlocks_sublist bufferSize ops _⟩
  rw [heq, List.length_append]
  omega

/-- Witness of `no_fabrication_no_duplication`: six pushes (two of them dropped) followed
by a pop. -/
theorem no_fabrication_no_duplication_witness :
    fullLength bufferSize ((sevenBlocks.take 6).map QueueOp.push ++ [.pop (taggedBlock 0)]) ∧
      deliveredBlocks bufferSize ((create bufferSize numBuffers).run bufferSize
          ((sevenBlocks.take 6).map QueueOp.push ++ [.pop (taggedBlock 0)])).2 <+:
        acceptedBlocks ((create bufferSize numBuffers).run bufferSize
          ((sevenBlocks.take 6).map QueueOp.push ++ [.pop (taggedBlock 0)])).2 := by
  have hfull : fullLength bufferSize
      ((sevenBlocks.take 6).map QueueOp.push ++ [.pop (taggedBlock 0)]) := by
    simp [sevenBlocks, fullLength, taggedBlock_length]
  exact ⟨hfull, (no_fabrication_no_duplication _ hfull).1⟩

theorem pushAsserts_eq {bs nb : Nat} {q : AudioBufferQueue} (hq : q.Valid bs nb)
    (d : List Sample) : q.pushAsserts bs d = decide (d.length ≤ bs) := by
  by_cases hroom : q.abstractFifo.getNumReady + 1 < q.abstractFifo.bufferSize
  · simp [pushAsserts, AbstractFifo.prepareToWrite_room hq.1 hroom]
  · simp [pushAsserts, AbstractFifo.prepareToWrite_full hq.1 (by omega)]

/-- What any push does to the list of unread blocks of a valid queue: either a slot is
obtained and the block formed in it is appended, or the queue is unchanged. -/
theorem unread_push {bs nb : Nat} {q : AudioBufferQueue} (hq : q.Valid bs nb)
    (d : List Sample) :
    (q.pushAccepted = true ∧
        (q.push bs d).unread = q.unread ++
          [FloatVectorOperations.copy (q.buffers.getD q.abstractFifo.validEnd.toNat []) d
            (min bs d.length)]) ∨
      (q.pushAccepted = false ∧ q.push bs d = q) := by
  have hh := valid_holds_unread hq
  by_cases hroom : q.unread.length + 1 < nb
  · left
    obtain ⟨h1, h2⟩ := push_room hh hroom d
    exact ⟨h1, holds_unread h2⟩
  · right
    exact push_no_room hh hroom d

/-- C6, as stated, fails: a push of a single sample into a fresh queue passes every
assertion and is accepted; the slot becomes ready holding that sample followed by 511
samples that were in the slot before. -/
theorem capacity_violation_counterexample :
    [(1 : Sample)].length ≠ bufferSize ∧
      (create bufferSize numBuffers).pushAsserts bufferSize [1] = true ∧
      (create bufferSize numBuffers).push bufferSize [1] ≠ create bufferSize numBuffers ∧
      ((create bufferSize numBuffers).push bufferSize [1]).unread =
        [1 :: List.replicate (bufferSize - 1) 0] := by
  have hv := valid_create bufferSize numBuffers (by decide)
  have hun : (create bufferSize numBuffers).unread = [] := holds_unread holds_fresh
  have hslot : (create bufferSize numBuffers).buffers.getD
      (create bufferSize numBuffers).abstractFifo.validEnd.toNat [] =
      List.replicate bufferSize 0 := by
    simp [create, AbstractFifo.create, numBuffers, List.getD_eq_getElem?_getD,
      List.getElem?_replicate]
  have hpush : ((create bufferSize numBuffers).push bufferSize [1]).unread =
      [1 :: List.replicate (bufferSize - 1) 0] := by
    rcases unread_push hv [1] with ⟨_, h⟩ | ⟨hacc, _⟩
    · rw [h, hun, hslot]
      have hmin : min bufferSize 1 = 1 := by decide
      simp [FloatVectorOperations.copy, hmin]
    · have := (push_room holds_fresh (by decide) [1]).1
      rw [this] at hacc
      exact absurd hacc (by decide)
  refine ⟨by decide, ?_, ?_, hpush⟩
  · rw [pushAsserts_eq hv]
    decide
  · intro h
    rw [h, hun] at hpush
    exact absurd hpush (by simp)

/-- C6, amended: for a valid queue and a block whose length differs from `bufferSize`,
a longer block makes the assertion `numSamples <= bufferSize` fail (and when the call
goes on, an obtained slot receives the first `bufferSize` samples); a shorter block passes
every assertion, and when a slot is obtained it becomes ready holding the block followed
by the samples the slot held before from that position on; when no slot is obtained the
queue is unchanged. -/
theorem capacity_violation (q : AudioBufferQueue) (data : List Sample)
    (hq : q.Valid bufferSize numBuffers) (hne : data.length ≠ bufferSize) :
    ((bufferSize < data.length ∧ q.pushAsserts bufferSize data = false ∧
          (q.pushAccepted = true →
            (q.push bufferSize data).unread = q.unread ++ [data.take bufferSize])) ∨
        (data.length < bufferSize ∧ q.pushAsserts bufferSize data = true ∧
          (q.pushAccepted = true →
            (q.push bufferSize data).unread = q.unread ++
              [data ++ (q.buffers.getD q.abstractFifo.validEnd.toNat []).drop
                data.length]))) ∧
      (q.pushAccepted = false → q.push bufferSize data = q) := by
  have hve : q.abstractFifo.validEnd.toNat < numBuffers := by
    obtain ⟨⟨_, _, _, _, _⟩, hcap, _, _⟩ := hq
    omega
  have hold := getD_length hq hve
  refine ⟨?_, fun hacc => ?_⟩
  · rcases Nat.lt_or_gt_of_ne hne with hlt | hlt
    · right
      refine ⟨hlt, ?_, fun hacc => ?_⟩
      · rw [pushAsserts_eq hq]
        exact decide_eq_true (by omega)
      · rcases unread_push hq data with ⟨_, h⟩ | ⟨h, _⟩
        · rw [h, FloatVectorOperations.copy, Nat.min_eq_right (le_of_lt hlt),
            List.take_of_length_le (le_refl _)]
        · rw [h] at hacc
          exact absurd hacc (by decide)
    · left
      refine ⟨hlt, ?_, fun hacc => ?_⟩
      · rw [pushAsserts_eq hq]
        exact decide_eq_false (by omega)
      · rcases unread_push hq data with ⟨_, h⟩ | ⟨h, _⟩
        · rw [h, FloatVectorOperations.copy, Nat.min_eq_left (le_of_lt hlt),
            List.drop_of_length_le (by omega), List.append_nil]
        · rw [h] at hacc
          exact absurd hacc (by decide)
  · rcases unread_push hq data with ⟨h, _⟩ | ⟨_, h⟩
    · rw [h] at hacc
      exact absurd hacc (by decide)
    · exact h

/-- Witness of `capacity_violation`: one sample pushed into the fresh queue. -/
theorem capacity_violation_witness :
    (create bufferSize numBuffers).Valid bufferSize numBuffers ∧
      [(1 : Sample)].length ≠ bufferSize ∧
      (create bufferSize numBuffers).pushAsserts bufferSize [1] = true :=
  ⟨valid_create bufferSize numBuffers (by decide), by decide,
    (capacity_violation (create bufferSize numBuffers) [1]
      (valid_create bufferSize numBuffers (by decide)) (by decide)).1.elim
      (fun h => absurd h.1 (by decide)) (fun h => h.2.1)⟩

/-- C7: in every state reachable from the fresh queue by pushes and pops with any
arguments, the number of unread blocks lies between `0` and `numBuffers`; a push changes
no slot that holds an unread block, so the unread blocks stay in place, in order, in
front of whatever the push adds; and a pop changes no slot at all. -/
theorem occupancy_invariant (q : AudioBufferQueue)
    (h : Reachable bufferSize numBuffers q) :
    (0 ≤ q.abstractFifo.getNumReady ∧ q.abstractFifo.getNumReady ≤ numBuffers) ∧
      q.unread.length ≤ numBuffers ∧
      (∀ (d : List Sample) (i : Nat), (i : Int) < q.abstractFifo.getNumReady →
        (q.push bufferSize d).buffers[q.slotIndex i]? = q.buffers[q.slotIndex i]?) ∧
      (∀ d : List Sample, q.unread <+: (q.push bufferSize d).unread) ∧
      (∀ o : List Sample, (q.pop bufferSize o).1.buffers = q.buffers) := by
  have hq := valid_of_reachable (by decide) h
  have hnn := AbstractFifo.getNumReady_nonneg hq.1
  have hlt := AbstractFifo.getNumReady_lt hq.1
  have hcap := hq.2.1
  refine ⟨⟨hnn, by omega⟩, ?_, fun d i hi => push_keeps_unread_slot hq d i hi, ?_, ?_⟩
  · have := holds_length_lt (valid_holds_unread hq)
    omega
  · intro d
    rcases unread_push hq d with ⟨_, h⟩ | ⟨_, h⟩
    · rw [h]
      exact List.prefix_append _ _
    · rw [h]
  · intro o
    rfl

/-- Witness of `occupancy_invariant`: the state after one push and one pop. -/
theorem occupancy_invariant_witness :
    Reachable bufferSize numBuffers
        (((create bufferSize numBuffers).push bufferSize (taggedBlock 1)).pop bufferSize
          (taggedBlock 0)).1 ∧
      (((create bufferSize numBuffers).push bufferSize (taggedBlock 1)).pop bufferSize
        (taggedBlock 0)).1.unread.length ≤ numBuffers :=
  ⟨(Reachable.create.push (taggedBlock 1)).pop (taggedBlock 0),
    (occupancy_invariant _ ((Reachable.create.push (taggedBlock 1)).pop (taggedBlock 0))).2.1⟩

end AudioBufferQueue

/-! ## The collector: trigger, collecting, single capture -/

namespace ScopeDataCollector

open AudioBufferQueue (bufferSize numBuffers)

theorem triggerLevel_lt_sentinel : triggerLevel < 100 := by
  norm_num [triggerLevel]

/-- C8: for a collector waiting for the trigger with previous sample `p`, `process` on the
single sample `x` moves to `collecting` exactly when `p < triggerLevel ≤ x`, and then
`numCollected` is `0`; otherwise it keeps waiting with `prevSample = x`.  In both cases
nothing is pushed, the queue is unchanged and `x` is not stored in the block in
progress. -/
theorem trigger_transition (c : ScopeDataCollector) (x : Sample)
    (h : c.state = .waitingForTrigger) :
    ((process triggerLevel bufferSize c [x]).1.state = .collecting ↔
        c.prevSample < triggerLevel ∧ triggerLevel ≤ x) ∧
      ((process triggerLevel bufferSize c [x]).1.state = .collecting →
        (process triggerLevel bufferSize c [x]).1.numCollected = 0) ∧
      ((process triggerLevel bufferSize c [x]).1.state ≠ .collecting →
        (process triggerLevel bufferSize c [x]).1.state = .waitingForTrigger ∧
          (process triggerLevel bufferSize c [x]).1.prevSample = x) ∧
      (process triggerLevel bufferSize c [x]).2 = [] ∧
      (process triggerLevel bufferSize c [x]).1.audioBufferQueue = c.audioBufferQueue ∧
      (process triggerLevel bufferSize c [x]).1.buffer = c.buffer := by
  rw [process_waiting triggerLevel bufferSize h]
  by_cases hx : x ≥ triggerLevel ∧ c.prevSample < triggerLevel
  · have hx2 : c.prevSample < triggerLevel ∧ triggerLevel ≤ x := ⟨hx.2, hx.1⟩
    simp [waitLoop, hx, hx2, collectLoop]
  · have hx2 : ¬ (c.prevSample < triggerLevel ∧ triggerLevel ≤ x) :=
      fun hc => hx ⟨hc.2, hc.1⟩
    simp [waitLoop, hx, hx2, h]

/-- Witness of `trigger_transition`: a fresh collector and the sample `1`. -/
theorem trigger_transition_witness :
    (create (AudioBufferQueue.create bufferSize numBuffers) (taggedBlock 0)).state =
        .waitingForTrigger ∧
      (process triggerLevel bufferSize
        (create (AudioBufferQueue.create bufferSize numBuffers) (taggedBlock 0)) [1]).2 = [] :=
  ⟨rfl, (trigger_transition
    (create (AudioBufferQueue.create bufferSize numBuffers) (taggedBlock 0)) 1 rfl).2.2.2.1⟩

/-- C9: for a collector in state `collecting` with `numCollected = n < bufferSize`,
`process` on the single sample `x` stores `x` at position `n` of the block in progress.
If `n + 1 < bufferSize` it stays in `collecting` with `numCollected = n + 1`, pushes
nothing and leaves the queue alone.  If `n + 1 = bufferSize` it calls `push` exactly once,
with the completed block of `bufferSize` samples, returns to `waitingForTrigger` and sets
`prevSample` to `100`, which is above `triggerLevel`, so that the next sample processed,
whatever its value, does not trigger. -/
theorem collecting_and_completion (c : ScopeDataCollector) (x : Sample)
    (hst : c.state = .collecting) (hlen : c.buffer.length = bufferSize)
    (hn : c.numCollected < bufferSize) :
    (process triggerLevel bufferSize c [x]).1.buffer = c.buffer.set c.numCollected x ∧
      (process triggerLevel bufferSize c [x]).1.buffer[c.numCollected]? = some x ∧
      (c.numCollected + 1 < bufferSize →
        (process triggerLevel bufferSize c [x]).1.state = .collecting ∧
          (process triggerLevel bufferSize c [x]).1.numCollected = c.numCollected + 1 ∧
          (process triggerLevel bufferSize c [x]).2 = [] ∧
          (process triggerLevel bufferSize c [x]).1.audioBufferQueue =
            c.audioBufferQueue) ∧
      (c.numCollected + 1 = bufferSize →
        (process triggerLevel bufferSize c [x]).2 = [c.buffer.set c.numCollected x] ∧
          (c.buffer.set c.numCollected x).length = bufferSize ∧
          (process triggerLevel bufferSize c [x]).1.audioBufferQueue =
            c.audioBufferQueue.push bufferSize (c.buffer.set c.numCollected x) ∧
          (process triggerLevel bufferSize c [x]).1.state = .waitingForTrigger ∧
          (process triggerLevel bufferSize c [x]).1.prevSample = 100 ∧
          triggerLevel < (process triggerLevel bufferSize c [x]).1.prevSample ∧
          ∀ y : Sample,
            (process triggerLevel bufferSize
              (process triggerLevel bufferSize c [x]).1 [y]).1.state = .waitingForTrigger ∧
            (process triggerLevel bufferSize
              (process triggerLevel bufferSize c [x]).1 [y]).2 = []) := by
  rw [process_collecting triggerLevel bufferSize hst]
  by_cases hfull : c.numCollected + 1 = bufferSize
  · have hif : c.numCollected + 1 = (c.buffer.set c.numCollected x).length := by
      rw [List.length_set, hlen, hfull]
    simp only [collectLoop, if_pos hif]
    refine ⟨trivial, List.getElem?_set_self (by omega), fun hlt => by omega, fun _ => ?_⟩
    refine ⟨trivial, by rw [List.length_set, hlen], trivial, trivial, trivial,
      triggerLevel_lt_sentinel, fun y => ?_⟩
    have hno : ¬ (y ≥ triggerLevel ∧ (100 : Sample) < triggerLevel) :=
      fun hc => absurd hc.2 (not_lt.mpr (le_of_lt triggerLevel_lt_sentinel))
    rw [process_waiting triggerLevel bufferSize rfl]
    simp [waitLoop, hno]
  · have hif : ¬ c.numCollected + 1 = (c.buffer.set c.numCollected x).length := by
      rw [List.length_set, hlen]
      exact hfull
    simp only [collectLoop, if_neg hif]
    exact ⟨trivial, List.getElem?_set_self (by omega), fun _ => ⟨hst, trivial, trivial, trivial⟩,
      fun h => absurd h hfull⟩

/-- Witness of `collecting_and_completion`: the last sample of a block. -/
theorem collecting_and_completion_witness :
    almostFull.state = .collecting ∧ almostFull.buffer.length = bufferSize ∧
      almostFull.numCollected < bufferSize ∧
      (process triggerLevel bufferSize almostFull [7]).1.buffer =
        almostFull.buffer.set almostFull.numCollected 7 :=
  ⟨rfl, AudioBufferQueue.taggedBlock_length 3, by decide,
    (collecting_and_completion almostFull 7 rfl (AudioBufferQueue.taggedBlock_length 3)
      (by decide)).1⟩

end ScopeDataCollector

namespace ScopeDataCollector

open AudioBufferQueue (bufferSize numBuffers)

/-- The first loop on samples below the level followed by a sample at or above it: the
trigger is found at that sample and the samples after it are left for the second loop. -/
theorem waitLoop_trigger (tl : Sample) (c : ScopeDataCollector) (lows s : List Sample)
    (hi : Sample) (hst : c.state = .waitingForTrigger) (hlow : ∀ x ∈ lows, x < tl)
    (hne : lows ≠ []) (hhi : tl ≤ hi) :
    (waitLoop tl c (lows ++ hi :: s)).2 = s ∧
      (waitLoop tl c (lows ++ hi :: s)).1.state = .collecting ∧
      (waitLoop tl c (lows ++ hi :: s)).1.numCollected = 0 ∧
      (waitLoop tl c (lows ++ hi :: s)).1.buffer = c.buffer ∧
      (waitLoop tl c (lows ++ hi :: s)).1.audioBufferQueue = c.audioBufferQueue := by
  obtain ⟨h1, h2, h3, h4, h5, h6⟩ := waitLoop_below tl lows c hlow
  have hprev : (waitLoop tl c lows).1.prevSample < tl := by
    rw [h6]
    have hl := List.getLast?_eq_getLast lows hne
    rw [hl]
    exact hlow _ (List.getLast_mem hne)
  rcases waitLoop_append tl lows (hi :: s) c hst with ⟨hcol, _⟩ | ⟨_, _, heq⟩
  · rw [h1, hst] at hcol
    exact absurd hcol (by decide)
  · rw [heq]
    have hc : hi ≥ tl ∧ (waitLoop tl c lows).1.prevSample < tl := ⟨hhi, hprev⟩
    simp only [waitLoop, hc, and_self, if_true]
    exact ⟨trivial, trivial, trivial, h4, h3⟩

/-- On a stream of samples below the level, one sample at or above it and fewer samples
than a block, `process` pushes nothing, wherever the stream is cut short. -/
theorem process_prefix_no_push (tl : Sample) (bs : Nat) (c : ScopeDataCollector)
    (lows s a b : List Sample) (hi : Sample) (hst : c.state = .waitingForTrigger)
    (hlow : ∀ x ∈ lows, x < tl) (hne : lows ≠ []) (hhi : tl ≤ hi)
    (hs : s.length = c.buffer.length) (hab : lows ++ hi :: s = a ++ b) (hb : b ≠ []) :
    (process tl bs c a).2 = [] := by
  have hstay : ∀ l : List Sample, (∀ x ∈ l, x < tl) → (process tl bs c l).2 = [] := by
    intro l hl
    have h1 := (waitLoop_below tl l c hl).1
    rw [process_waiting tl bs hst, if_neg (by rw [h1, hst]; decide)]
  rcases List.append_eq_append_iff.mp hab with ⟨a', ha, hc⟩ | ⟨c', ha, _⟩
  · cases a' with
    | nil =>
      rw [ha, List.append_nil]
      exact hstay lows hlow
    | cons y s' =>
      simp only [List.cons_append, List.cons.injEq] at hc
      obtain ⟨hy, hs'⟩ := hc
      subst hy
      obtain ⟨w1, w2, w3, w4, _⟩ := waitLoop_trigger tl c lows s' hi hst hlow hne hhi
      have hlt : s'.length < c.buffer.length := by
        have hbl : 0 < b.length := List.length_pos.mpr hb
        have := congrArg List.length hs'
        simp only [List.length_append] at this
        omega
      rw [ha, process_waiting tl bs hst, if_pos w2, w1,
        collectLoop_short bs s' _ (by rw [w3, w4]; omega)]
  · apply hstay
    intro x hx
    exact hlow x (by rw [ha]; exact List.mem_append_left _ hx)

/-- On a stream of samples below the level, one sample at or above it and exactly one
block of samples, a single call of `process` pushes that block once. -/
theorem process_trigger_block (tl : Sample) (bs : Nat) (c : ScopeDataCollector)
    (lows s : List Sample) (hi : Sample) (hst : c.state = .waitingForTrigger)
    (hlow : ∀ x ∈ lows, x < tl) (hne : lows ≠ []) (hhi : tl ≤ hi)
    (hs : s.length = c.buffer.length) (hpos : s ≠ []) :
    (process tl bs c (lows ++ hi :: s)).2 = [s] ∧
      (process tl bs c (lows ++ hi :: s)).1.audioBufferQueue =
        c.audioBufferQueue.push bs s ∧
      (process tl bs c (lows ++ hi :: s)).1.state = .waitingForTrigger := by
  obtain ⟨w1, w2, w3, w4, w5⟩ := waitLoop_trigger tl c lows s hi hst hlow hne hhi
  rw [process_waiting tl bs hst, if_pos w2, w1,
    collectLoop_exact bs s _ (by rw [w3, w4]; omega) hpos]
  simp [w3, w5]

/-- C10: for `n ≥ 1` and a list `s` of exactly `bufferSize` samples, a fresh collector on
an empty queue that is fed `n` copies of `triggerLevel - 0.01`, then `triggerLevel + 0.01`,
then `s` (in one call or cut into chunks in any way) makes exactly one push, of the block
`s`: the block starts with the sample after the crossing sample, which itself is not part
of it.  The queue then holds `s` as its only unread block. -/
theorem single_trigger_capture (n : Nat) (s buffer : List Sample)
    (chunks : List (List Sample)) (hn : 1 ≤ n) (hs : s.length = bufferSize)
    (hb : buffer.length = bufferSize)
    (hc : chunks.flatten =
      List.replicate n (triggerLevel - 0.01) ++ [triggerLevel + 0.01] ++ s) :
    (feed triggerLevel bufferSize
        (create (AudioBufferQueue.create bufferSize numBuffers) buffer) chunks).2 = [s] ∧
      (feed triggerLevel bufferSize
        (create (AudioBufferQueue.create bufferSize numBuffers) buffer)
          chunks).1.audioBufferQueue.unread = [s] ∧
      chunks.flatten[n]? = some (triggerLevel + 0.01) ∧
      chunks.flatten.drop (n + 1) = s := by
  have hlow : ∀ x ∈ List.replicate n (triggerLevel - 0.01), x < triggerLevel := by
    intro x hx
    rw [List.eq_of_mem_replicate hx]
    norm_num
  have hne : List.replicate n (triggerLevel - 0.01) ≠ [] := by
    intro h
    have := congrArg List.length h
    simp only [List.length_replicate, List.length_nil] at this
    omega
  have hhi : triggerLevel ≤ triggerLevel + 0.01 := by norm_num
  have hsne : s ≠ [] := by
    intro h
    rw [h] at hs
    exact absurd hs (by decide)
  have hstream : chunks.flatten =
      List.replicate n (triggerLevel - 0.01) ++ (triggerLevel + 0.01) :: s := by
    rw [hc, List.append_assoc, List.singleton_append]
  have hfeed := feed_eq_process triggerLevel bufferSize chunks
    (create (AudioBufferQueue.create bufferSize numBuffers) buffer) (by
      intro a b hab hbne
      exact process_prefix_no_push triggerLevel bufferSize _ _ s a b _ rfl hlow hne hhi
        (by rw [hs]; exact hb.symm) (by rw [← hstream]; exact hab) hbne)
  obtain ⟨p1, p2, _⟩ := process_trigger_block triggerLevel bufferSize
    (create (AudioBufferQueue.create bufferSize numBuffers) buffer) _ s _ rfl hlow hne hhi
    (by rw [hs]; exact hb.symm) hsne
  rw [hfeed, hstream]
  refine ⟨p1, ?_, ?_, ?_⟩
  · rw [p2]
    exact AudioBufferQueue.holds_unread
      (AudioBufferQueue.push_room_full AudioBufferQueue.holds_fresh (by decide) hs).2
  · rw [List.getElem?_append_right (by simp)]
    simp
  · rw [List.drop_append_eq_append_drop]
    simp

/-- Witness of `single_trigger_capture`: one sample below the level, the crossing sample
and a block, delivered in two chunks. -/
theorem single_trigger_capture_witness :
    1 ≤ 1 ∧ (taggedBlock 2).length = bufferSize ∧ (taggedBlock 0).length = bufferSize ∧
      [[triggerLevel - 0.01, triggerLevel + 0.01], taggedBlock 2].flatten =
        List.replicate 1 (triggerLevel - 0.01) ++ [triggerLevel + 0.01] ++ taggedBlock 2 ∧
      (feed triggerLevel bufferSize
        (create (AudioBufferQueue.create bufferSize numBuffers) (taggedBlock 0))
        [[triggerLevel - 0.01, triggerLevel + 0.01], taggedBlock 2]).2 = [taggedBlock 2] :=
  ⟨le_refl 1, AudioBufferQueue.taggedBlock_length 2, AudioBufferQueue.taggedBlock_length 0,
    by simp,
    (single_trigger_capture 1 (taggedBlock 2) (taggedBlock 0)
      [[triggerLevel - 0.01, triggerLevel + 0.01], taggedBlock 2] (le_refl 1)
      (AudioBufferQueue.taggedBlock_length 2) (AudioBufferQueue.taggedBlock_length 0)
      (by simp)).1⟩

end ScopeDataCollector

/-! ## Calls that complete a block -/

namespace ScopeDataCollector

theorem collectLoop_push_length (bs : Nat) (a : List Sample) :
    ∀ (c : ScopeDataCollector), (collectLoop bs c a).2.length ≤ 1 := by
  induction a with
  | nil => intro c; simp [collectLoop]
  | cons x a ih =>
    intro c
    by_cases hfull : c.numCollected + 1 = (c.buffer.set c.numCollected x).length
    · simp [collectLoop, hfull]
    · simp only [collectLoop, hfull, if_false]
      exact ih _

/-- A push ends the second loop: the collector waits again with the sentinel as previous
sample, and the samples that follow in the chunk are not looked at. -/
theorem collectLoop_push_stop (bs : Nat) (a b : List Sample) :
    ∀ (c : ScopeDataCollector), (collectLoop bs c a).2 ≠ [] →
      collectLoop bs c (a ++ b) = collectLoop bs c a ∧
        (collectLoop bs c a).1.state = .waitingForTrigger ∧
        (collectLoop bs c a).1.prevSample = 100 := by
  induction a with
  | nil => intro c h; simp [collectLoop] at h
  | cons x a ih =>
    intro c h
    by_cases hfull : c.numCollected + 1 = (c.buffer.set c.numCollected x).length
    · simp [collectLoop, hfull]
    · simp only [collectLoop, hfull, if_false] at h
      simp only [List.cons_append, collectLoop, hfull, if_false]
      exact ih _ h

theorem process_push_length (tl : Sample) (bs : Nat) (c : ScopeDataCollector)
    (data : List Sample) : (process tl bs c data).2.length ≤ 1 := by
  unfold process
  simp only
  split_ifs
  · exact collectLoop_push_length bs _ _
  · simp
  · exact collectLoop_push_length bs _ _
  · simp

/-- A call that pushes ends at the push: whatever follows in the chunk changes nothing. -/
theorem process_push_stop (tl : Sample) (bs : Nat) (c : ScopeDataCollector)
    (a b : List Sample) (h : (process tl bs c a).2 ≠ []) :
    process tl bs c (a ++ b) = process tl bs c a ∧
      (process tl bs c a).1.state = .waitingForTrigger ∧
      (process tl bs c a).1.prevSample = 100 := by
  cases hs : c.state with
  | collecting =>
    rw [process_collecting tl bs hs] at h ⊢
    rw [process_collecting tl bs hs]
    exact collectLoop_push_stop bs a b c h
  | waitingForTrigger =>
    rw [process_waiting tl bs hs] at h ⊢
    rw [process_waiting tl bs hs]
    rcases waitLoop_append tl a b c hs with ⟨hst, heq⟩ | ⟨hst, _, _⟩
    · rw [if_pos hst] at h ⊢
      rw [heq, if_pos hst]
      exact collectLoop_push_stop bs _ b _ h
    · have hne : ¬ (waitLoop tl c a).1.state = .collecting := by
        rw [hst]; decide
      rw [if_neg hne] at h
      exact absurd rfl h

/-- A call on samples that all lie below the level, made while waiting, pushes nothing. -/
theorem process_below (tl : Sample) (bs : Nat) (c : ScopeDataCollector) (a : List Sample)
    (hst : c.state = .waitingForTrigger) (hlow : ∀ x ∈ a, x < tl) :
    process tl bs c a = ((waitLoop tl c a).1, []) := by
  have h1 := (waitLoop_below tl a c hlow).1
  rw [process_waiting tl bs hst, if_neg (by rw [h1, hst]; decide)]

end ScopeDataCollector

/-! ## The collector: call boundaries -/

namespace ScopeDataCollector

open AudioBufferQueue (bufferSize numBuffers)

/-- C16: for every collector state and chunks `a` and `b` such that the call on `a` pushes
nothing (no block is completed while `a` is consumed), the single call on `a ++ b` ends in
the same collector (state, counters, block in progress, queue) and makes the same pushes
as the call on `a` followed by the call on `b`. -/
theorem call_boundary_composition (c : ScopeDataCollector) (a b : List Sample)
    (h : (process triggerLevel bufferSize c a).2 = []) :
    (process triggerLevel bufferSize c (a ++ b)).1 =
        (process triggerLevel bufferSize (process triggerLevel bufferSize c a).1 b).1 ∧
      (process triggerLevel bufferSize c (a ++ b)).2 =
        (process triggerLevel bufferSize c a).2 ++
          (process triggerLevel bufferSize (process triggerLevel bufferSize c a).1 b).2 := by
  rw [process_append triggerLevel bufferSize c a b h, h]
  exact ⟨rfl, rfl⟩

/-- Witness of `call_boundary_composition`: a fresh collector, a sample below the level
and then a sample above it. -/
theorem call_boundary_composition_witness :
    (process triggerLevel bufferSize
        (create (AudioBufferQueue.create bufferSize numBuffers) (taggedBlock 0)) [0]).2 = [] ∧
      (process triggerLevel bufferSize
        (create (AudioBufferQueue.create bufferSize numBuffers) (taggedBlock 0))
          ([0] ++ [1])).1 =
        (process triggerLevel bufferSize
          (process triggerLevel bufferSize
            (create (AudioBufferQueue.create bufferSize numBuffers) (taggedBlock 0)) [0]).1
          [1]).1 := by
  have h : (process triggerLevel bufferSize
      (create (AudioBufferQueue.create bufferSize numBuffers) (taggedBlock 0)) [0]).2 = [] := by
    rw [process_below triggerLevel bufferSize _ [0] rfl (by
      intro x hx
      rw [List.mem_singleton.mp hx]
      norm_num [triggerLevel])]
  exact ⟨h, (call_boundary_composition _ [0] [1] h).1⟩

/-- C17: for every collector state and chunk, one call of `process` pushes at most one
block; and when a block is completed at position `i` of the chunk (the call on the first
`i` samples pushes nothing, the call on the first `i + 1` samples pushes), the call ends
there: collector, queue and pushes are those of the call on the chunk cut after position
`i`, the collector waits for the trigger with `prevSample = 100`, and the samples after
position `i` are neither collected nor examined. -/
theorem one_block_per_call (c : ScopeDataCollector) (data : List Sample) (i : Nat) :
    (process triggerLevel bufferSize c data).2.length ≤ 1 ∧
      ((process triggerLevel bufferSize c (data.take i)).2 = [] →
        (process triggerLevel bufferSize c (data.take (i + 1))).2 ≠ [] →
        process triggerLevel bufferSize c data =
            process triggerLevel bufferSize c (data.take (i + 1)) ∧
          (process triggerLevel bufferSize c data).1.state = .waitingForTrigger ∧
          (process triggerLevel bufferSize c data).1.prevSample = 100 ∧
          ∀ rest : List Sample,
            process triggerLevel bufferSize c (data.take (i + 1) ++ rest) =
              process triggerLevel bufferSize c data) := by
  refine ⟨process_push_length _ _ _ _, fun _ h2 => ?_⟩
  obtain ⟨h3, h4, h5⟩ := process_push_stop triggerLevel bufferSize c (data.take (i + 1))
    (data.drop (i + 1)) h2
  rw [List.take_append_drop] at h3
  rw [h3]
  exact ⟨rfl, h4, h5, fun rest =>
    (process_push_stop triggerLevel bufferSize c (data.take (i + 1)) rest h2).1⟩

/-- Witness of `one_block_per_call`: the last sample of a block followed by two more
samples in the same chunk. -/
theorem one_block_per_call_witness :
    (process triggerLevel bufferSize almostFull (([7, 8, 9] : List Sample).take 0)).2 = [] ∧
      (process triggerLevel bufferSize almostFull
        (([7, 8, 9] : List Sample).take (0 + 1))).2 ≠ [] ∧
      process triggerLevel bufferSize almostFull [7, 8, 9] =
        process triggerLevel bufferSize almostFull (([7, 8, 9] : List Sample).take (0 + 1)) := by
  have h1 : (process triggerLevel bufferSize almostFull
      (([7, 8, 9] : List Sample).take 0)).2 = [] := by
    rw [List.take_zero, process_nil]
  have h2 : (process triggerLevel bufferSize almostFull
      (([7, 8, 9] : List Sample).take (0 + 1))).2 ≠ [] := by
    have hlen : (almostFull.buffer.set almostFull.numCollected 7).length =
        almostFull.numCollected + 1 := by
      rw [List.length_set]
      exact AudioBufferQueue.taggedBlock_length 3
    rw [process_collecting triggerLevel bufferSize rfl]
    simp only [List.take_succ_cons, List.take_zero, collectLoop, hlen, if_true]
    exact List.cons_ne_nil _ _
  exact ⟨h1, h2, ((one_block_per_call almostFull [7, 8, 9] 0).2 h1 h2).1⟩

end ScopeDataCollector

/-! ## Streams cut into chunks -/

namespace ScopeDataCollector

theorem feed_append (tl : Sample) (bs : Nat) (xs ys : List (List Sample)) :
    ∀ (c : ScopeDataCollector),
      feed tl bs c (xs ++ ys) =
        ((feed tl bs (feed tl bs c xs).1 ys).1,
          (feed tl bs c xs).2 ++ (feed tl bs (feed tl bs c xs).1 ys).2) := by
  induction xs with
  | nil => intro c; simp [feed]
  | cons ch xs ih => intro c; simp [feed, ih]

theorem flatten_singles (s : List Sample) : (singles s).flatten = s := by
  induction s with
  | nil => rfl
  | cons x s ih => simp [singles] at ih ⊢; exact ih

theorem singles_append (a b : List Sample) : singles (a ++ b) = singles a ++ singles b := by
  simp [singles]

/-- A chunk in which no block is completed before its last sample can be fed sample by
sample instead. -/
theorem feed_singles_chunk (tl : Sample) (bs : Nat) (c : ScopeDataCollector)
    (chunk : List Sample)
    (h : ∀ a b, chunk = a ++ b → b ≠ [] → (process tl bs c a).2 = []) :
    feed tl bs c (singles chunk) = process tl bs c chunk := by
  have := feed_eq_process tl bs (singles chunk) c (by
    rw [flatten_singles]
    exact h)
  rw [this, flatten_singles]

/-- A cutting in which every completed block ends its chunk does what feeding the stream
sample by sample does. -/
theorem feed_blocksEndChunks (tl : Sample) (bs : Nat) (chunks : List (List Sample)) :
    ∀ (c : ScopeDataCollector), blocksEndChunks tl bs c chunks →
      feed tl bs c chunks = feed tl bs c (singles chunks.flatten) := by
  induction chunks with
  | nil => intro c _; rfl
  | cons ch chunks ih =>
    intro c h
    obtain ⟨h1, h2⟩ := h
    rw [List.flatten_cons, singles_append, feed_append, feed_singles_chunk tl bs c ch h1,
      ← ih _ h2]
    rfl

theorem blocksEndChunks_singles (tl : Sample) (bs : Nat) (s : List Sample) :
    ∀ (c : ScopeDataCollector), blocksEndChunks tl bs c (singles s) := by
  induction s with
  | nil => intro c; trivial
  | cons x s ih =>
    intro c
    refine ⟨?_, ih _⟩
    intro a b hab hb
    cases a with
    | nil => rw [process_nil]
    | cons y a =>
      simp only [List.cons_append, List.cons.injEq] at hab
      have : b = [] := (List.append_eq_nil.mp hab.2.symm).2
      exact absurd this hb

/-- While there is no rising edge through the level the first loop consumes everything and
stays in its state. -/
theorem waitLoop_noCross (tl : Sample) (a : List Sample) :
    ∀ (c : ScopeDataCollector), noCross tl c.prevSample a →
      (waitLoop tl c a).1.state = c.state ∧ (waitLoop tl c a).2 = [] ∧
        (waitLoop tl c a).1.audioBufferQueue = c.audioBufferQueue ∧
        (waitLoop tl c a).1.buffer = c.buffer ∧
        (waitLoop tl c a).1.numCollected = c.numCollected ∧
        (waitLoop tl c a).1.prevSample = (a.getLast?).getD c.prevSample := by
  induction a with
  | nil => intro c _; simp [waitLoop]
  | cons x a ih =>
    intro c h
    obtain ⟨h1, h2⟩ := h
    have hx : ¬ (x ≥ tl ∧ c.prevSample < tl) := fun hc => h1 ⟨hc.2, hc.1⟩
    have := ih { c with prevSample := x } h2
    simp only [waitLoop, hx, if_false]
    refine ⟨this.1, this.2.1, this.2.2.1, this.2.2.2.1, this.2.2.2.2.1, ?_⟩
    rw [this.2.2.2.2.2]
    cases a with
    | nil => simp
    | cons y a => simp [List.getLast?_cons]

theorem noCross_of_ge (tl : Sample) (a : List Sample) :
    ∀ (p : Sample), tl ≤ p → (∀ x ∈ a, tl ≤ x) → noCross tl p a := by
  induction a with
  | nil => intro p _ _; trivial
  | cons x a ih =>
    intro p hp h
    exact ⟨fun hc => absurd hc.1 (not_lt.mpr hp),
      ih x (h x (List.mem_cons_self _ _)) (fun y hy => h y (List.mem_cons_of_mem _ hy))⟩

/-- A call made while waiting on samples without a rising edge pushes nothing. -/
theorem process_noCross (tl : Sample) (bs : Nat) (c : ScopeDataCollector) (a : List Sample)
    (hst : c.state = .waitingForTrigger) (h : noCross tl c.prevSample a) :
    process tl bs c a = ((waitLoop tl c a).1, []) := by
  have h1 := (waitLoop_noCross tl a c h).1
  rw [process_waiting tl bs hst, if_neg (by rw [h1, hst]; decide)]

/-- The collector after a call that triggers and completes exactly one block. -/
theorem process_trigger_block_state (tl : Sample) (bs : Nat) (c : ScopeDataCollector)
    (lows s : List Sample) (hi : Sample) (hst : c.state = .waitingForTrigger)
    (hlow : ∀ x ∈ lows, x < tl) (hne : lows ≠ []) (hhi : tl ≤ hi)
    (hs : s.length = c.buffer.length) (hpos : s ≠ []) :
    (process tl bs c (lows ++ hi :: s)).1.buffer = s ∧
      (process tl bs c (lows ++ hi :: s)).1.prevSample = 100 ∧
      (process tl bs c (lows ++ hi :: s)).1.numCollected = s.length := by
  obtain ⟨w1, w2, w3, w4, w5⟩ := waitLoop_trigger tl c lows s hi hst hlow hne hhi
  rw [process_waiting tl bs hst, if_pos w2, w1,
    collectLoop_exact bs s _ (by rw [w3, w4]; omega) hpos]
  simp [w3, w4, hs]

end ScopeDataCollector

/-! ## The collector: chunking -/

namespace ScopeDataCollector

open AudioBufferQueue (bufferSize numBuffers)

theorem bufferSize_eq : bufferSize = 512 := by decide

/-- The first chunk of both example cuttings, up to the end of the first block. -/
theorem process_first_capture (q : AudioBufferQueue) :
    (process triggerLevel bufferSize (create q (taggedBlock 0))
        (0 :: 1 :: taggedBlock 2)).2 = [taggedBlock 2] ∧
      (process triggerLevel bufferSize (create q (taggedBlock 0))
        (0 :: 1 :: taggedBlock 2)).1.state = .waitingForTrigger ∧
      (process triggerLevel bufferSize (create q (taggedBlock 0))
        (0 :: 1 :: taggedBlock 2)).1.buffer = taggedBlock 2 ∧
      (process triggerLevel bufferSize (create q (taggedBlock 0))
        (0 :: 1 :: taggedBlock 2)).1.prevSample = 100 := by
  have hlow : ∀ x ∈ [(0 : Sample)], x < triggerLevel := by
    intro x hx
    rw [List.mem_singleton.mp hx]
    norm_num [triggerLevel]
  have hhi : triggerLevel ≤ 1 := by norm_num [triggerLevel]
  have hs : (taggedBlock 2).length = (create q (taggedBlock 0)).buffer.length := by
    rw [AudioBufferQueue.taggedBlock_length]
    exact (AudioBufferQueue.taggedBlock_length 0).symm
  have hne : taggedBlock 2 ≠ [] := by
    intro h
    have := congrArg List.length h
    rw [AudioBufferQueue.taggedBlock_length] at this
    exact absurd this (by decide)
  obtain ⟨h1, _, h3⟩ := process_trigger_block triggerLevel bufferSize (create q (taggedBlock 0))
    [0] (taggedBlock 2) 1 rfl hlow (by simp) hhi hs hne
  obtain ⟨h4, h5, _⟩ := process_trigger_block_state triggerLevel bufferSize
    (create q (taggedBlock 0)) [0] (taggedBlock 2) 1 rfl hlow (by simp) hhi hs hne
  exact ⟨h1, h3, h4, h5⟩

/-- C11, as stated, fails: a stream with two captures is cut in two ways into chunks of
513 to 515 samples.  When the first chunk ends with the first block, both blocks are
pushed; when it goes one sample further, that sample is skipped, the second trigger is
missed and only the first block is pushed. -/
theorem chunking_independence_counterexample :
    cutPastBlock.flatten = cutAtBlock.flatten ∧
      (∀ ch ∈ cutPastBlock, 1 ≤ ch.length ∧ ch.length ≤ 10 * bufferSize) ∧
      (∀ ch ∈ cutAtBlock, 1 ≤ ch.length ∧ ch.length ≤ 10 * bufferSize) ∧
      (feed triggerLevel bufferSize
        (create (AudioBufferQueue.create bufferSize numBuffers) (taggedBlock 0))
        cutPastBlock).2 = [taggedBlock 2] ∧
      (feed triggerLevel bufferSize
        (create (AudioBufferQueue.create bufferSize numBuffers) (taggedBlock 0))
        cutAtBlock).2 = [taggedBlock 2, taggedBlock 3] ∧
      (feed triggerLevel bufferSize
        (create (AudioBufferQueue.create bufferSize numBuffers) (taggedBlock 0))
        cutPastBlock).2 ≠
        (feed triggerLevel bufferSize
          (create (AudioBufferQueue.create bufferSize numBuffers) (taggedBlock 0))
          cutAtBlock).2 := by
  obtain ⟨h1, h2, h3, h4⟩ :=
    process_first_capture (AudioBufferQueue.create bufferSize numBuffers)
  have hpast : (feed triggerLevel bufferSize
      (create (AudioBufferQueue.create bufferSize numBuffers) (taggedBlock 0))
      cutPastBlock).2 = [taggedBlock 2] := by
    have hstop := (process_push_stop triggerLevel bufferSize
      (create (AudioBufferQueue.create bufferSize numBuffers) (taggedBlock 0))
      (0 :: 1 :: taggedBlock 2) [0] (by rw [h1]; exact List.cons_ne_nil _ _)).1
    have hnc : noCross triggerLevel
        (process triggerLevel bufferSize
          (create (AudioBufferQueue.create bufferSize numBuffers) (taggedBlock 0))
          (0 :: 1 :: taggedBlock 2)).1.prevSample (1 :: taggedBlock 3) := by
      rw [h4]
      apply noCross_of_ge
      · norm_num [triggerLevel]
      · intro x hx
        rcases List.mem_cons.mp hx with h | h
        · rw [h]; norm_num [triggerLevel]
        · rw [List.eq_of_mem_replicate h]; norm_num [triggerLevel]
    simp only [cutPastBlock, feed, hstop, h1,
      process_noCross triggerLevel bufferSize _ _ h2 hnc, List.append_nil]
  have hat : (feed triggerLevel bufferSize
      (create (AudioBufferQueue.create bufferSize numBuffers) (taggedBlock 0))
      cutAtBlock).2 = [taggedBlock 2, taggedBlock 3] := by
    have hlow : ∀ x ∈ [(0 : Sample)], x < triggerLevel := by
      intro x hx
      rw [List.mem_singleton.mp hx]
      norm_num [triggerLevel]
    have hne : taggedBlock 3 ≠ [] := by
      intro h
      have := congrArg List.length h
      rw [AudioBufferQueue.taggedBlock_length] at this
      exact absurd this (by decide)
    have hsecond := (process_trigger_block triggerLevel bufferSize
      (process triggerLevel bufferSize
        (create (AudioBufferQueue.create bufferSize numBuffers) (taggedBlock 0))
        (0 :: 1 :: taggedBlock 2)).1 [0] (taggedBlock 3) 1 h2 hlow (by simp)
      (by norm_num [triggerLevel])
      (by rw [h3, AudioBufferQueue.taggedBlock_length, AudioBufferQueue.taggedBlock_length])
      hne).1
    simp only [List.singleton_append] at hsecond
    simp only [cutAtBlock, feed, h1, hsecond, List.append_nil, List.singleton_append]
  refine ⟨by simp [cutPastBlock, cutAtBlock], ?_, ?_, hpast, hat, ?_⟩
  · intro ch hch
    simp only [cutPastBlock, List.mem_cons, List.mem_singleton, List.not_mem_nil,
      or_false] at hch
    rcases hch with h | h <;> rw [h] <;>
      simp only [List.length_cons, List.length_append, List.length_nil,
        AudioBufferQueue.taggedBlock_length, bufferSize_eq] <;> omega
  · intro ch hch
    simp only [cutAtBlock, List.mem_cons, List.mem_singleton, List.not_mem_nil,
      or_false] at hch
    rcases hch with h | h <;> rw [h] <;>
      simp only [List.length_cons, AudioBufferQueue.taggedBlock_length, bufferSize_eq] <;>
      omega
  · rw [hpast, hat]
    intro h
    have := congrArg List.length h
    simp at this

/-- C11, amended: for every sample stream and every two ways of cutting it into chunks
(of any sizes, in particular between 1 and 10 × `bufferSize`) in which every block that is
completed ends its chunk, feeding the chunks one per call to a fresh collector pushes the
same blocks and ends in the same collector, namely what feeding the stream sample by
sample gives. -/
theorem chunking_independence (q : AudioBufferQueue) (buffer : List Sample)
    (chunks₁ chunks₂ : List (List Sample)) (hflat : chunks₁.flatten = chunks₂.flatten)
    (h₁ : blocksEndChunks triggerLevel bufferSize (create q buffer) chunks₁)
    (h₂ : blocksEndChunks triggerLevel bufferSize (create q buffer) chunks₂) :
    feed triggerLevel bufferSize (create q buffer) chunks₁ =
        feed triggerLevel bufferSize (create q buffer) chunks₂ ∧
      feed triggerLevel bufferSize (create q buffer) chunks₁ =
        feed triggerLevel bufferSize (create q buffer) (singles chunks₁.flatten) := by
  have e1 := feed_blocksEndChunks triggerLevel bufferSize chunks₁ _ h₁
  have e2 := feed_blocksEndChunks triggerLevel bufferSize chunks₂ _ h₂
  exact ⟨by rw [e1, e2, hflat], e1⟩

end ScopeDataCollector

/-! ## Calls on few samples -/

namespace ScopeDataCollector

/-- What the first loop can do: stay in its state having consumed everything, or find the
trigger, which takes one sample, and two when the previous sample is not below the
level. -/
theorem waitLoop_cases (tl : Sample) (a : List Sample) :
    ∀ (c : ScopeDataCollector),
      (waitLoop tl c a).1.buffer = c.buffer ∧
        (waitLoop tl c a).1.audioBufferQueue = c.audioBufferQueue ∧
        (((waitLoop tl c a).1.state = c.state ∧ (waitLoop tl c a).2 = []) ∨
          ((waitLoop tl c a).1.state = .collecting ∧ (waitLoop tl c a).1.numCollected = 0 ∧
            (waitLoop tl c a).2.length + 1 ≤ a.length ∧
            (tl ≤ c.prevSample → (waitLoop tl c a).2.length + 2 ≤ a.length))) := by
  induction a with
  | nil => intro c; simp [waitLoop]
  | cons x a ih =>
    intro c
    by_cases hx : x ≥ tl ∧ c.prevSample < tl
    · simp only [waitLoop, hx, and_self, if_true, List.length_cons]
      refine ⟨trivial, trivial, Or.inr ⟨trivial, trivial, le_refl _, fun h => ?_⟩⟩
      exact absurd hx.2 (not_lt.mpr h)
    · obtain ⟨h1, h2, h3⟩ := ih { c with prevSample := x }
      simp only [waitLoop, hx, if_false, List.length_cons]
      refine ⟨h1, h2, ?_⟩
      rcases h3 with ⟨h4, h5⟩ | ⟨h4, h5, h6, _⟩
      · exact Or.inl ⟨h4, h5⟩
      · exact Or.inr ⟨h4, h5, by omega, fun _ => by omega⟩

/-- A call on fewer samples than `samplesToPush` pushes nothing, leaves the queue alone
and lowers `samplesToPush` by at most the number of samples. -/
theorem process_short (tl : Sample) (bs : Nat) (c : ScopeDataCollector) (a : List Sample)
    (h : a.length < samplesToPush tl c) :
    (process tl bs c a).2 = [] ∧
      samplesToPush tl c ≤ samplesToPush tl (process tl bs c a).1 + a.length ∧
      (process tl bs c a).1.audioBufferQueue = c.audioBufferQueue := by
  cases hs : c.state with
  | collecting =>
    simp only [samplesToPush, hs] at h ⊢
    rw [process_collecting tl bs hs, collectLoop_short bs a c (by omega)]
    simp only [samplesToPush, hs, List.length_append, List.length_take, List.length_drop]
    refine ⟨trivial, ?_, trivial⟩
    omega
  | waitingForTrigger =>
    cases a with
    | nil => rw [process_nil]; exact ⟨rfl, le_refl _, rfl⟩
    | cons x a =>
      obtain ⟨hb, hq, hcase⟩ := waitLoop_cases tl (x :: a) c
      rw [process_waiting tl bs hs]
      rcases hcase with ⟨hst, _⟩ | ⟨hst, hn, hl1, hl2⟩
      · rw [hs] at hst
        rw [if_neg (by rw [hst]; decide)]
        refine ⟨rfl, ?_, hq⟩
        simp only [samplesToPush, hs, hst, hb, List.length_cons]
        split_ifs <;> omega
      · rw [if_pos hst]
        simp only [samplesToPush, hs] at h
        have hshort : (waitLoop tl c (x :: a)).1.numCollected +
            (waitLoop tl c (x :: a)).2.length < (waitLoop tl c (x :: a)).1.buffer.length := by
          rw [hn, hb]
          by_cases hp : c.prevSample < tl
          · rw [if_pos hp] at h
            omega
          · rw [if_neg hp] at h
            have := hl2 (not_lt.mp hp)
            omega
        rw [collectLoop_short bs _ _ hshort]
        refine ⟨rfl, ?_, hq⟩
        simp only [samplesToPush, hs, hst, hn, hb, List.length_append, List.length_take,
          List.length_drop]
        by_cases hp : c.prevSample < tl
        · rw [if_pos hp] at h ⊢
          rw [hn, hb] at hshort
          omega
        · rw [if_neg hp] at h ⊢
          have := hl2 (not_lt.mp hp)
          rw [hn, hb] at hshort
          omega

/-- Feeding fewer samples than `samplesToPush`, cut in any way, pushes nothing and leaves
the queue alone. -/
theorem feed_short (tl : Sample) (bs : Nat) (chunks : List (List Sample)) :
    ∀ (c : ScopeDataCollector), chunks.flatten.length < samplesToPush tl c →
      (feed tl bs c chunks).2 = [] ∧
        (feed tl bs c chunks).1.audioBufferQueue = c.audioBufferQueue := by
  induction chunks with
  | nil => intro c _; exact ⟨rfl, rfl⟩
  | cons ch chunks ih =>
    intro c h
    simp only [List.flatten_cons, List.length_append] at h
    obtain ⟨h1, h2, h3⟩ := process_short tl bs c ch (by omega)
    obtain ⟨h4, h5⟩ := ih (process tl bs c ch).1 (by omega)
    simp only [feed, h1, h4, List.append_nil, h5, h3, and_self]

end ScopeDataCollector

namespace ScopeDataCollector

open AudioBufferQueue (bufferSize numBuffers)

theorem samplesToPush_create (tl : Sample) (q : AudioBufferQueue) (buffer : List Sample) :
    buffer.length < samplesToPush tl (create q buffer) := by
  simp only [samplesToPush, create]
  split_ifs <;> omega

/-- The cutting `cutAtBlock` makes two pushes, on any queue. -/
theorem feed_cutAtBlock (q : AudioBufferQueue) :
    (feed triggerLevel bufferSize (create q (taggedBlock 0)) cutAtBlock).2 =
      [taggedBlock 2, taggedBlock 3] := by
  obtain ⟨h1, h2, h3, _⟩ := process_first_capture q
  have hlow : ∀ x ∈ [(0 : Sample)], x < triggerLevel := by
    intro x hx
    rw [List.mem_singleton.mp hx]
    norm_num [triggerLevel]
  have hne : taggedBlock 3 ≠ [] := by
    intro h
    have := congrArg List.length h
    rw [AudioBufferQueue.taggedBlock_length] at this
    exact absurd this (by decide)
  have hsecond := (process_trigger_block triggerLevel bufferSize
    (process triggerLevel bufferSize (create q (taggedBlock 0))
      (0 :: 1 :: taggedBlock 2)).1 [0] (taggedBlock 3) 1 h2 hlow (by simp)
    (by norm_num [triggerLevel])
    (by rw [h3, AudioBufferQueue.taggedBlock_length, AudioBufferQueue.taggedBlock_length])
    hne).1
  simp only [List.singleton_append] at hsecond
  simp only [cutAtBlock, feed, h1, hsecond, List.append_nil, List.singleton_append]

/-- In the cutting `cutAtBlock` each of the two blocks is completed by the last sample of
its chunk. -/
theorem blocksEndChunks_cutAtBlock (q : AudioBufferQueue) :
    blocksEndChunks triggerLevel bufferSize (create q (taggedBlock 0)) cutAtBlock := by
  obtain ⟨_, h2, h3, _⟩ := process_first_capture q
  have hlow : ∀ x ∈ [(0 : Sample)], x < triggerLevel := by
    intro x hx
    rw [List.mem_singleton.mp hx]
    norm_num [triggerLevel]
  have hhi : triggerLevel ≤ 1 := by norm_num [triggerLevel]
  unfold cutAtBlock
  refine ⟨?_, ?_, trivial⟩
  · intro a b hab hb
    exact process_prefix_no_push triggerLevel bufferSize (create q (taggedBlock 0)) [0]
      (taggedBlock 2) a b 1 rfl hlow (by simp) hhi
      (by
        rw [AudioBufferQueue.taggedBlock_length]
        exact (AudioBufferQueue.taggedBlock_length 0).symm)
      (by rw [List.singleton_append]; exact hab) hb
  · intro a b hab hb
    exact process_prefix_no_push triggerLevel bufferSize _ [0] (taggedBlock 3) a b 1 h2 hlow
      (by simp) hhi
      (by rw [h3, AudioBufferQueue.taggedBlock_length, AudioBufferQueue.taggedBlock_length])
      (by rw [List.singleton_append]; exact hab) hb

/-- Witness of `chunking_independence`: the stream with two captures, cut at the end of
each block and cut into single samples; both blocks are completed and pushed. -/
theorem chunking_independence_witness :
    cutAtBlock.flatten = (singles cutAtBlock.flatten).flatten ∧
      blocksEndChunks triggerLevel bufferSize
        (create (AudioBufferQueue.create bufferSize numBuffers) (taggedBlock 0))
        cutAtBlock ∧
      blocksEndChunks triggerLevel bufferSize
        (create (AudioBufferQueue.create bufferSize numBuffers) (taggedBlock 0))
        (singles cutAtBlock.flatten) ∧
      (feed triggerLevel bufferSize
        (create (AudioBufferQueue.create bufferSize numBuffers) (taggedBlock 0))
        cutAtBlock).2 = [taggedBlock 2, taggedBlock 3] ∧
      feed triggerLevel bufferSize
          (create (AudioBufferQueue.create bufferSize numBuffers) (taggedBlock 0))
          cutAtBlock =
        feed triggerLevel bufferSize
          (create (AudioBufferQueue.create bufferSize numBuffers) (taggedBlock 0))
          (singles cutAtBlock.flatten) :=
  ⟨(flatten_singles _).symm, blocksEndChunks_cutAtBlock _, blocksEndChunks_singles _ _ _ _,
    feed_cutAtBlock _,
    (chunking_independence (AudioBufferQueue.create bufferSize numBuffers) (taggedBlock 0)
      cutAtBlock (singles cutAtBlock.flatten) (flatten_singles _).symm
      (blocksEndChunks_cutAtBlock _) (blocksEndChunks_singles _ _ _ _)).1⟩

end ScopeDataCollector

/-! ## Streams with exactly one capture -/

namespace ScopeDataCollector

/-- A stream that completes its first block exactly at the end of `pre` and continues
with too few samples for another block: however it is cut into chunks, exactly that block
is pushed. -/
theorem feed_one_push (tl : Sample) (bs : Nat) (post : List Sample) (blk : List Sample)
    (chunks : List (List Sample)) :
    ∀ (c : ScopeDataCollector) (pre : List Sample), chunks.flatten = pre ++ post →
      (∀ a b, pre = a ++ b → b ≠ [] → (process tl bs c a).2 = []) →
      (process tl bs c pre).2 = [blk] →
      post.length < samplesToPush tl (process tl bs c pre).1 →
      (feed tl bs c chunks).2 = [blk] ∧
        (feed tl bs c chunks).1.audioBufferQueue =
          (process tl bs c pre).1.audioBufferQueue := by
  induction chunks with
  | nil =>
    intro c pre hflat _ hpush _
    have hpre : pre = [] := (List.append_eq_nil.mp hflat.symm).1
    rw [hpre, process_nil] at hpush
    exact absurd hpush (by simp)
  | cons ch rest ih =>
    intro c pre hflat hno hpush hshort
    have hne : (process tl bs c pre).2 ≠ [] := by rw [hpush]; exact List.cons_ne_nil _ _
    rw [List.flatten_cons] at hflat
    rcases List.append_eq_append_iff.mp hflat with ⟨a', hpre, hrest⟩ | ⟨c', hch, hpost⟩
    · cases a' with
      | nil =>
        rw [List.append_nil] at hpre
        rw [List.nil_append] at hrest
        subst hpre
        obtain ⟨h1, h2⟩ := feed_short tl bs rest (process tl bs c pre).1
          (by rw [hrest]; exact hshort)
        simp only [feed, hpush, h1, h2, List.append_nil, and_self]
      | cons y a' =>
        have h0 : (process tl bs c ch).2 = [] :=
          hno ch (y :: a') hpre (List.cons_ne_nil _ _)
        have hpa := process_append tl bs c ch (y :: a') h0
        rw [← hpre] at hpa
        obtain ⟨h1, h2⟩ := ih (process tl bs c ch).1 (y :: a') hrest (by
          intro a b hab hb
          have h3 := hno (ch ++ a) b (by rw [hpre, hab, List.append_assoc]) hb
          rw [process_append tl bs c ch a h0] at h3
          exact h3) (by rw [← hpa]; exact hpush) (by rw [← hpa]; exact hshort)
        rw [← hpa] at h2
        simp only [feed, h0, h1, h2, List.nil_append, and_self]
    · have hstop := (process_push_stop tl bs c pre c' hne).1
      rw [← hch] at hstop
      have hlen : rest.flatten.length < samplesToPush tl (process tl bs c ch).1 := by
        rw [hstop]
        have := congrArg List.length hpost
        simp only [List.length_append] at this
        omega
      obtain ⟨h1, h2⟩ := feed_short tl bs rest (process tl bs c ch).1 hlen
      rw [hstop] at h1 h2
      simp only [feed, hstop, hpush, h1, h2, List.append_nil, and_self]

end ScopeDataCollector

/-! ## The collector: the concrete scenario -/

namespace ScopeDataCollector

/-- C12: with block length 4, two slots and level 0, a fresh collector that is fed the
stream `-1, -1, 1, 2, 3, 4, -1, -1, 1, 5, 6, 7`, cut into chunks in any way (in particular
as one single call), makes exactly one push, of the block `2, 3, 4, -1`: the sample `1` at
index 2 crosses the level and collecting starts with the sample after it.  The queue then
holds this block as its only unread block. -/
theorem concrete_scenario (buffer : List Sample) (chunks : List (List Sample))
    (hb : buffer.length = 4)
    (hc : chunks.flatten = [-1, -1, 1, 2, 3, 4, -1, -1, 1, 5, 6, 7]) :
    (feed 0 4 (create (AudioBufferQueue.create 4 2) buffer) chunks).2 = [[2, 3, 4, -1]] ∧
      (feed 0 4 (create (AudioBufferQueue.create 4 2) buffer) chunks).1.audioBufferQueue =
        (AudioBufferQueue.create 4 2).push 4 [2, 3, 4, -1] ∧
      (feed 0 4 (create (AudioBufferQueue.create 4 2) buffer)
        chunks).1.audioBufferQueue.unread = [[2, 3, 4, -1]] ∧
      (process 0 4 (create (AudioBufferQueue.create 4 2) buffer)
        [-1, -1, 1, 2, 3, 4, -1, -1, 1, 5, 6, 7]).2 = [[2, 3, 4, -1]] := by
  have hlow : ∀ x ∈ [(-1 : Sample), -1], x < 0 := by
    intro x hx
    simp only [List.mem_cons, List.mem_singleton, List.not_mem_nil, or_false, or_self] at hx
    rw [hx]
    norm_num
  have hs : ([2, 3, 4, -1] : List Sample).length =
      (create (AudioBufferQueue.create 4 2) buffer).buffer.length := by
    simp [create, hb]
  obtain ⟨p1, p2, p3⟩ := process_trigger_block 0 4 (create (AudioBufferQueue.create 4 2) buffer)
    [-1, -1] [2, 3, 4, -1] 1 rfl hlow (by simp) (by norm_num) hs (by simp)
  obtain ⟨s1, s2, _⟩ := process_trigger_block_state 0 4
    (create (AudioBufferQueue.create 4 2) buffer)
    [-1, -1] [2, 3, 4, -1] 1 rfl hlow (by simp) (by norm_num) hs (by simp)
  have hneed : ([-1, 1, 5, 6, 7] : List Sample).length <
      samplesToPush 0 (process 0 4 (create (AudioBufferQueue.create 4 2) buffer)
        ([-1, -1] ++ 1 :: [2, 3, 4, -1])).1 := by
    simp only [samplesToPush, p3, s1, s2, List.length_cons, List.length_nil]
    norm_num
  obtain ⟨f1, f2⟩ := feed_one_push 0 4 [-1, 1, 5, 6, 7] [2, 3, 4, -1] chunks
    (create (AudioBufferQueue.create 4 2) buffer) ([-1, -1] ++ 1 :: [2, 3, 4, -1])
    (by rw [hc]; rfl)
    (fun a b hab hbne => process_prefix_no_push 0 4 _ [-1, -1] [2, 3, 4, -1] a b 1 rfl hlow
      (by simp) (by norm_num) hs hab hbne)
    p1 hneed
  have hstop := (process_push_stop 0 4 (create (AudioBufferQueue.create 4 2) buffer)
    ([-1, -1] ++ 1 :: [2, 3, 4, -1]) [-1, 1, 5, 6, 7]
    (by rw [p1]; exact List.cons_ne_nil _ _)).1
  have hq : (feed 0 4 (create (AudioBufferQueue.create 4 2) buffer)
      chunks).1.audioBufferQueue = (AudioBufferQueue.create 4 2).push 4 [2, 3, 4, -1] := by
    rw [f2, p2]
    rfl
  refine ⟨f1, hq, ?_, ?_⟩
  · rw [hq]
    exact AudioBufferQueue.holds_unread
      (AudioBufferQueue.push_room_full (AudioBufferQueue.holds_create 4 2 (by decide))
        (by decide) (by simp)).2
  · have : ([-1, -1, 1, 2, 3, 4, -1, -1, 1, 5, 6, 7] : List Sample) =
        ([-1, -1] ++ 1 :: [2, 3, 4, -1]) ++ [-1, 1, 5, 6, 7] := rfl
    rw [this, hstop, p1]

/-- Witness of `concrete_scenario`: the stream cut after the seventh and the ninth
sample. -/
theorem concrete_scenario_witness :
    ([0, 0, 0, 0] : List Sample).length = 4 ∧
      ([[-1, -1, 1, 2, 3, 4, -1], [-1, 1], [5, 6, 7]] : List (List Sample)).flatten =
        [-1, -1, 1, 2, 3, 4, -1, -1, 1, 5, 6, 7] ∧
      (feed 0 4 (create (AudioBufferQueue.create 4 2) [0, 0, 0, 0])
        [[-1, -1, 1, 2, 3, 4, -1], [-1, 1], [5, 6, 7]]).2 = [[2, 3, 4, -1]] :=
  ⟨rfl, rfl, (concrete_scenario [0, 0, 0, 0]
    [[-1, -1, 1, 2, 3, 4, -1], [-1, 1], [5, 6, 7]] rfl rfl).1⟩

end ScopeDataCollector

/-! ## The first trigger of a stream -/

namespace ScopeDataCollector

theorem crossAt_succ (tl : Sample) (y : Sample) (ys : List Sample) (u : Nat)
    (h : crossAt tl ys u) : crossAt tl (y :: ys) (u + 1) := by
  obtain ⟨hu, p, x, hp, hx, h1, h2⟩ := h
  refine ⟨by omega, p, x, ?_, ?_, h1, h2⟩
  · obtain ⟨v, rfl⟩ : ∃ v, u = v + 1 := ⟨u - 1, by omega⟩
    simpa using hp
  · simpa using hx

/-- No crossing before index `n` means no rising edge in the first `n` samples, when the
first sample does not rise from the previous sample `p`. -/
theorem noCross_take (tl : Sample) (s : List Sample) :
    ∀ (p : Sample) (n : Nat),
      (∀ x, s[0]? = some x → 0 < n → ¬ (p < tl ∧ tl ≤ x)) →
      (∀ u, u < n → ¬ crossAt tl s u) → noCross tl p (s.take n) := by
  induction s with
  | nil => intro p n _ _; simp [noCross]
  | cons y ys ih =>
    intro p n h0 hno
    cases n with
    | zero => simp [noCross]
    | succ m =>
      rw [List.take_succ_cons]
      refine ⟨h0 y (by simp) (by omega), ih y m ?_ ?_⟩
      · intro x hx hm hc
        exact hno 1 (by omega) ⟨le_refl 1, y, x, by simp, by simpa using hx, hc.1, hc.2⟩
      · intro u hu hc
        exact hno (u + 1) (by omega) (crossAt_succ tl y ys u hc)

/-- The first loop on samples without a rising edge followed by a sample that rises
through the level: the trigger is found at that sample. -/
theorem waitLoop_cross (tl : Sample) (c : ScopeDataCollector) (pre post : List Sample)
    (x : Sample) (hst : c.state = .waitingForTrigger) (hno : noCross tl c.prevSample pre)
    (hlast : (pre.getLast?).getD c.prevSample < tl) (hx : tl ≤ x) :
    (waitLoop tl c (pre ++ x :: post)).2 = post ∧
      (waitLoop tl c (pre ++ x :: post)).1.state = .collecting ∧
      (waitLoop tl c (pre ++ x :: post)).1.numCollected = 0 ∧
      (waitLoop tl c (pre ++ x :: post)).1.buffer = c.buffer ∧
      (waitLoop tl c (pre ++ x :: post)).1.audioBufferQueue = c.audioBufferQueue := by
  obtain ⟨h1, h2, h3, h4, h5, h6⟩ := waitLoop_noCross tl pre c hno
  rcases waitLoop_append tl pre (x :: post) c hst with ⟨hcol, _⟩ | ⟨_, _, heq⟩
  · rw [h1, hst] at hcol
    exact absurd hcol (by decide)
  · rw [heq]
    have hc : x ≥ tl ∧ (waitLoop tl c pre).1.prevSample < tl := ⟨hx, by rw [h6]; exact hlast⟩
    simp only [waitLoop, hc, and_self, if_true]
    exact ⟨trivial, trivial, trivial, h4, h3⟩

/-- The first push of a chunked run is the push of the single call on the whole stream, if
there is one. -/
theorem feed_head (tl : Sample) (bs : Nat) (chunks : List (List Sample)) :
    ∀ (c : ScopeDataCollector),
      (feed tl bs c chunks).2.head? = (process tl bs c chunks.flatten).2.head? := by
  induction chunks with
  | nil => intro c; simp [feed, process_nil]
  | cons ch rest ih =>
    intro c
    by_cases h : (process tl bs c ch).2 = []
    · rw [List.flatten_cons, process_append tl bs c ch rest.flatten h, ← ih]
      simp [feed, h]
    · rw [List.flatten_cons, (process_push_stop tl bs c ch rest.flatten h).1]
      simp only [feed, List.head?_append]
      cases hp : (process tl bs c ch).2 with
      | nil => exact absurd hp h
      | cons b bsl => simp

/-- The second loop on at least as many samples as are missing from an empty block: the
block is filled with the first of them and pushed. -/
theorem collectLoop_long (bs : Nat) (c : ScopeDataCollector) (post : List Sample)
    (hn : c.numCollected = 0) (hpos : 0 < c.buffer.length)
    (hlen : c.buffer.length ≤ post.length) :
    (collectLoop bs c post).2 = [post.take c.buffer.length] := by
  have hsplit : post = post.take c.buffer.length ++ post.drop c.buffer.length :=
    (List.take_append_drop _ _).symm
  have htl : (post.take c.buffer.length).length = c.buffer.length := by
    rw [List.length_take]
    omega
  have hne : post.take c.buffer.length ≠ [] := by
    intro h
    rw [h] at htl
    simp only [List.length_nil] at htl
    omega
  have hex := collectLoop_exact bs (post.take c.buffer.length) c (by rw [hn, htl]; omega) hne
  have hpush : (collectLoop bs c (post.take c.buffer.length)).2 ≠ [] := by
    rw [hex]
    exact List.cons_ne_nil _ _
  have hstop := (collectLoop_push_stop bs (post.take c.buffer.length)
    (post.drop c.buffer.length) c hpush).1
  rw [← hsplit] at hstop
  rw [hstop, hex, hn]
  simp

end ScopeDataCollector

namespace ScopeDataCollector

/-- One call, made while waiting with a previous sample that is not below the level, on a
stream whose first upward crossing is at index `t`: the block of the samples after index
`t` is pushed when there are enough of them, and nothing is pushed otherwise. -/
theorem process_first_cross (tl : Sample) (bs : Nat) (c : ScopeDataCollector)
    (s : List Sample) (t : Nat) (hst : c.state = .waitingForTrigger)
    (hp : tl ≤ c.prevSample) (hpos : 0 < c.buffer.length) (hcross : crossAt tl s t)
    (hfirst : ∀ u, u < t → ¬ crossAt tl s u) :
    (t + c.buffer.length < s.length →
        (process tl bs c s).2 = [(s.drop (t + 1)).take c.buffer.length]) ∧
      (s.length ≤ t + c.buffer.length → (process tl bs c s).2 = []) := by
  obtain ⟨ht, p', x, hp', hx, hlt, hge⟩ := hcross
  obtain ⟨htlen, hxe⟩ := List.getElem?_eq_some_iff.mp hx
  have hsplit : s = s.take t ++ x :: s.drop (t + 1) := by
    conv_lhs => rw [← List.take_append_drop t s, List.drop_eq_getElem_cons htlen, hxe]
  have hno : noCross tl c.prevSample (s.take t) :=
    noCross_take tl s c.prevSample t
      (fun y _ _ hc => absurd hc.1 (not_lt.mpr hp)) hfirst
  have hlast : ((s.take t).getLast?).getD c.prevSample < tl := by
    have hl : (s.take t).length = t := by
      rw [List.length_take]
      omega
    rw [List.getLast?_eq_getElem?, hl, List.getElem?_take_of_lt (by omega), hp']
    exact hlt
  obtain ⟨w1, w2, w3, w4, _⟩ :=
    waitLoop_cross tl c (s.take t) (s.drop (t + 1)) x hst hno hlast hge
  have hdl : (s.drop (t + 1)).length = s.length - (t + 1) := List.length_drop _ _
  have hproc : process tl bs c s =
      collectLoop bs (waitLoop tl c (s.take t ++ x :: s.drop (t + 1))).1 (s.drop (t + 1)) := by
    conv_lhs => rw [hsplit]
    rw [process_waiting tl bs hst, if_pos w2, w1]
  rw [hproc]
  constructor
  · intro hlen
    have := collectLoop_long bs _ (s.drop (t + 1)) w3 (by rw [w4]; exact hpos)
      (by rw [w4, hdl]; omega)
    rw [w4] at this
    exact this
  · intro hlen
    rw [collectLoop_short bs _ _ (by rw [w3, w4, hdl]; omega)]

/-- One call, made while waiting with a previous sample that is not below the level, on a
stream without an upward crossing pushes nothing. -/
theorem process_never_cross (tl : Sample) (bs : Nat) (c : ScopeDataCollector)
    (s : List Sample) (hst : c.state = .waitingForTrigger) (hp : tl ≤ c.prevSample)
    (hnone : ∀ u, ¬ crossAt tl s u) : (process tl bs c s).2 = [] := by
  have hno := noCross_take tl s c.prevSample s.length
    (fun y _ _ hc => absurd hc.1 (not_lt.mpr hp)) (fun u _ => hnone u)
  rw [List.take_length] at hno
  rw [process_noCross tl bs c s hst hno]

end ScopeDataCollector

/-! ## The collector: the first captured block -/

namespace ScopeDataCollector

open AudioBufferQueue (bufferSize numBuffers)

/-- C15: a stream `s` is fed to a fresh collector, cut into chunks in any way.  When `t`
is the least index with `t ≥ 1` and `s[t - 1] < triggerLevel ≤ s[t]` and at least
`bufferSize` samples follow index `t`, the first block pushed is `s[t + 1 .. t + bufferSize]`;
when fewer than `bufferSize` samples follow index `t`, or when there is no such index at
all, nothing is pushed. -/
theorem first_block_determined (q : AudioBufferQueue) (buffer s : List Sample)
    (chunks : List (List Sample)) (t : Nat) (hb : buffer.length = bufferSize)
    (hc : chunks.flatten = s) :
    (crossAt triggerLevel s t → (∀ u, u < t → ¬ crossAt triggerLevel s u) →
        (t + bufferSize < s.length →
          (feed triggerLevel bufferSize (create q buffer) chunks).2.head? =
            some ((s.drop (t + 1)).take bufferSize)) ∧
        (s.length ≤ t + bufferSize →
          (feed triggerLevel bufferSize (create q buffer) chunks).2 = [])) ∧
      ((∀ u, ¬ crossAt triggerLevel s u) →
        (feed triggerLevel bufferSize (create q buffer) chunks).2 = []) := by
  have hhead := feed_head triggerLevel bufferSize chunks (create q buffer)
  rw [hc] at hhead
  have hp : triggerLevel ≤ (create q buffer).prevSample :=
    le_of_lt triggerLevel_lt_sentinel
  have hpos : 0 < (create q buffer).buffer.length := by
    show 0 < buffer.length
    rw [hb]
    decide
  refine ⟨fun hcross hfirst => ?_, fun hnone => ?_⟩
  · obtain ⟨h1, h2⟩ := process_first_cross triggerLevel bufferSize (create q buffer) s t rfl
      hp hpos hcross hfirst
    have hbl : (create q buffer).buffer.length = bufferSize := hb
    rw [hbl] at h1 h2
    constructor
    · intro hlen
      rw [hhead, h1 hlen]
      rfl
    · intro hlen
      rw [h2 hlen] at hhead
      exact List.head?_eq_none_iff.mp hhead
  · rw [process_never_cross triggerLevel bufferSize (create q buffer) s rfl hp hnone] at hhead
    exact List.head?_eq_none_iff.mp hhead

/-- Witness of `first_block_determined`: the stream `0, 1` followed by a block, cut after
its first sample; the crossing is at index 1. -/
theorem first_block_determined_witness :
    (taggedBlock 0).length = bufferSize ∧
      ([[0], 1 :: taggedBlock 2] : List (List Sample)).flatten = 0 :: 1 :: taggedBlock 2 ∧
      crossAt triggerLevel (0 :: 1 :: taggedBlock 2) 1 ∧
      (∀ u, u < 1 → ¬ crossAt triggerLevel (0 :: 1 :: taggedBlock 2) u) ∧
      1 + bufferSize < (0 :: 1 :: taggedBlock 2).length ∧
      (feed triggerLevel bufferSize
        (create (AudioBufferQueue.create bufferSize numBuffers) (taggedBlock 0))
        [[0], 1 :: taggedBlock 2]).2.head? =
        some (((0 :: 1 :: taggedBlock 2).drop (1 + 1)).take bufferSize) := by
  have hcross : crossAt triggerLevel (0 :: 1 :: taggedBlock 2) 1 :=
    ⟨le_refl 1, 0, 1, by simp, by simp, by norm_num [triggerLevel],
      by norm_num [triggerLevel]⟩
  have hfirst : ∀ u, u < 1 → ¬ crossAt triggerLevel (0 :: 1 :: taggedBlock 2) u := by
    intro u hu hcr
    have := hcr.1
    omega
  have hlen : 1 + bufferSize < (0 :: 1 :: taggedBlock 2).length := by
    simp only [List.length_cons, AudioBufferQueue.taggedBlock_length]
    omega
  have hflat : ([[0], 1 :: taggedBlock 2] : List (List Sample)).flatten =
      0 :: 1 :: taggedBlock 2 := by
    simp only [List.flatten_cons, List.flatten_nil, List.append_nil, List.singleton_append]
  exact ⟨AudioBufferQueue.taggedBlock_length 0, hflat, hcross, hfirst, hlen,
    ((first_block_determined (AudioBufferQueue.create bufferSize numBuffers) (taggedBlock 0)
      (0 :: 1 :: taggedBlock 2) [[0], 1 :: taggedBlock 2] 1
      (AudioBufferQueue.taggedBlock_length 0) hflat).1 hcross hfirst).1 hlen⟩

end ScopeDataCollector

/-! ## The loops on the level of indices -/

namespace ScopeDataCollector

theorem drop_take_cons (mem : List Sample) (n index : Nat) (hn : n ≤ mem.length)
    (hi : index < n) :
    ∃ x, mem[index]? = some x ∧
      (mem.take n).drop index = x :: (mem.take n).drop (index + 1) := by
  have hlen : index < (mem.take n).length := by
    rw [List.length_take]
    omega
  refine ⟨(mem.take n)[index], ?_, List.drop_eq_getElem_cons hlen⟩
  rw [← List.getElem?_take_of_lt hi, List.getElem?_eq_getElem hlen]

theorem drop_take_nil (mem : List Sample) (n index : Nat) (hi : n ≤ index) :
    (mem.take n).drop index = [] := by
  apply List.drop_of_length_le
  rw [List.length_take]
  omega

/-- The first loop with indices reads only inside the first `numSamples` samples and does
what the first loop on the list of these samples does. -/
theorem waitLoopAt_eq (tl : Sample) (mem : List Sample) (n : Nat) (hn : n ≤ mem.length) :
    ∀ (k : Nat) (c : ScopeDataCollector) (index : Nat), n - index = k → index ≤ n →
      ∃ idx pos,
        waitLoopAt tl mem n c index index =
            some ((waitLoop tl c ((mem.take n).drop index)).1, idx, pos) ∧
          ((waitLoop tl c ((mem.take n).drop index)).1.state = .collecting →
            c.state = .waitingForTrigger →
            pos = idx ∧ idx ≤ n ∧
              (waitLoop tl c ((mem.take n).drop index)).2 = (mem.take n).drop idx) := by
  intro k
  induction k with
  | zero =>
    intro c index hk hle
    have hnot : ¬ index < n := by omega
    rw [waitLoopAt, dif_neg hnot, drop_take_nil mem n index (by omega)]
    refine ⟨index + 1, index, rfl, ?_⟩
    intro h1 h2
    simp only [waitLoop] at h1
    rw [h2] at h1
    exact absurd h1 (by decide)
  | succ k ih =>
    intro c index hk hle
    have hlt : index < n := by omega
    obtain ⟨x, hx, hdrop⟩ := drop_take_cons mem n index hn hlt
    rw [waitLoopAt, dif_pos hlt, hdrop]
    simp only [hx, waitLoop]
    by_cases hc : x ≥ tl ∧ c.prevSample < tl
    · simp only [hc, and_self, if_true]
      exact ⟨index + 1, index + 1, rfl, fun _ _ => ⟨rfl, by omega, rfl⟩⟩
    · simp only [hc, if_false]
      exact ih { c with prevSample := x } (index + 1) (by omega) (by omega)

/-- The second loop with indices, started with room in the block, reads only inside the
first `numSamples` samples, writes only inside the block and does what the second loop on
the list of these samples does. -/
theorem collectLoopAt_eq (bs : Nat) (mem : List Sample) (n : Nat) (hn : n ≤ mem.length) :
    ∀ (k : Nat) (c : ScopeDataCollector) (index : Nat), n - index = k → index ≤ n →
      c.numCollected < c.buffer.length →
      collectLoopAt bs mem n c index index =
        some (collectLoop bs c ((mem.take n).drop index)) := by
  intro k
  induction k with
  | zero =>
    intro c index hk hle _
    have hnot : ¬ index < n := by omega
    rw [collectLoopAt, dif_neg hnot, drop_take_nil mem n index (by omega)]
    rfl
  | succ k ih =>
    intro c index hk hle hroom
    have hlt : index < n := by omega
    obtain ⟨x, hx, hdrop⟩ := drop_take_cons mem n index hn hlt
    rw [collectLoopAt, dif_pos hlt, hdrop]
    simp only [hx, hroom, if_true, collectLoop]
    by_cases hfull : c.numCollected + 1 = (c.buffer.set c.numCollected x).length
    · simp only [hfull, if_true]
    · simp only [hfull, if_false]
      apply ih _ (index + 1) (by omega) (by omega)
      simp only [List.length_set] at hfull ⊢
      omega

/-- The call with indices, on a region of at least `numSamples` samples and from a
collector with room in its block, is the call on the list of the first `numSamples`
samples: it reads no other sample and writes only inside the block. -/
theorem processAt_eq (tl : Sample) (bs : Nat) (c : ScopeDataCollector) (mem : List Sample)
    (n : Nat) (hn : n ≤ mem.length) (hpos : 0 < c.buffer.length)
    (hroom : c.state = .collecting → c.numCollected < c.buffer.length) :
    processAt tl bs c mem n = some (process tl bs c (mem.take n)) := by
  cases hs : c.state with
  | collecting =>
    have h := collectLoopAt_eq bs mem n hn (n - 0) c 0 rfl (Nat.zero_le _) (hroom hs)
    rw [List.drop_zero] at h
    simp only [processAt, hs, process_collecting tl bs hs]
    simpa [hs] using h
  | waitingForTrigger =>
    obtain ⟨idx, pos, heq, hcol⟩ := waitLoopAt_eq tl mem n hn (n - 0) c 0 rfl (Nat.zero_le _)
    rw [List.drop_zero] at heq hcol
    obtain ⟨hb, _, hcase⟩ := waitLoop_cases tl (mem.take n) c
    simp only [processAt, hs, if_true, heq, process_waiting tl bs hs]
    by_cases hst : (waitLoop tl c (mem.take n)).1.state = .collecting
    · obtain ⟨hp, hidx, hrest⟩ := hcol hst hs
      have hnc : (waitLoop tl c (mem.take n)).1.numCollected = 0 := by
        rcases hcase with ⟨h1, _⟩ | ⟨_, h2, _⟩
        · rw [h1, hs] at hst
          exact absurd hst (by decide)
        · exact h2
      simp only [hst, if_true, hp, hrest]
      exact collectLoopAt_eq bs mem n hn (n - idx) _ idx rfl hidx (by rw [hnc, hb]; exact hpos)
    · simp only [hst, if_false]

end ScopeDataCollector

/-! ## The collector: the collected count -/

namespace ScopeDataCollector

open AudioBufferQueue (bufferSize numBuffers)

theorem waitLoop_count (tl : Sample) (bs : Nat) (a : List Sample) :
    ∀ (c : ScopeDataCollector), 0 < bs → c.buffer.length = bs → c.numCollected ≤ bs →
      (c.state = .collecting → c.numCollected < bs) →
      (waitLoop tl c a).1.buffer.length = bs ∧ (waitLoop tl c a).1.numCollected ≤ bs ∧
        ((waitLoop tl c a).1.state = .collecting → (waitLoop tl c a).1.numCollected < bs) := by
  induction a with
  | nil => intro c _ h1 h2 h3; exact ⟨h1, h2, h3⟩
  | cons x a ih =>
    intro c hbs h1 h2 h3
    by_cases hx : x ≥ tl ∧ c.prevSample < tl
    · simp only [waitLoop, hx, and_self, if_true]
      exact ⟨h1, Nat.zero_le _, fun _ => hbs⟩
    · simp only [waitLoop, hx, if_false]
      exact ih { c with prevSample := x } hbs h1 h2 h3

theorem collectLoop_count (bs0 bs : Nat) (a : List Sample) :
    ∀ (c : ScopeDataCollector), c.buffer.length = bs → c.state = .collecting →
      c.numCollected < bs →
      (collectLoop bs0 c a).1.buffer.length = bs ∧ (collectLoop bs0 c a).1.numCollected ≤ bs ∧
        ((collectLoop bs0 c a).1.state = .collecting →
          (collectLoop bs0 c a).1.numCollected < bs) := by
  induction a with
  | nil => intro c h1 _ h3; exact ⟨h1, le_of_lt h3, fun _ => h3⟩
  | cons x a ih =>
    intro c h1 h2 h3
    by_cases hfull : c.numCollected + 1 = (c.buffer.set c.numCollected x).length
    · simp only [collectLoop, hfull, if_true]
      refine ⟨by rw [List.length_set]; exact h1, ?_, fun h => absurd h (by decide)⟩
      rw [List.length_set, h1]
    · simp only [collectLoop, hfull, if_false]
      apply ih
      · simp only [List.length_set]
        exact h1
      · exact h2
      · simp only [List.length_set] at hfull ⊢
        omega

theorem process_count (tl : Sample) (bs0 bs : Nat) (c : ScopeDataCollector)
    (a : List Sample) (hbs : 0 < bs) (h1 : c.buffer.length = bs) (h2 : c.numCollected ≤ bs)
    (h3 : c.state = .collecting → c.numCollected < bs) :
    (process tl bs0 c a).1.buffer.length = bs ∧ (process tl bs0 c a).1.numCollected ≤ bs ∧
      ((process tl bs0 c a).1.state = .collecting →
        (process tl bs0 c a).1.numCollected < bs) := by
  cases hs : c.state with
  | collecting =>
    rw [process_collecting tl bs0 hs]
    exact collectLoop_count bs0 bs a c h1 hs (h3 hs)
  | waitingForTrigger =>
    obtain ⟨w1, w2, w3⟩ := waitLoop_count tl bs a c hbs h1 h2 h3
    rw [process_waiting tl bs0 hs]
    by_cases hst : (waitLoop tl c a).1.state = .collecting
    · rw [if_pos hst]
      exact collectLoop_count bs0 bs _ _ w1 hst (w3 hst)
    · rw [if_neg hst]
      exact ⟨w1, w2, w3⟩

theorem count_of_reachable (tl : Sample) (bs : Nat) (hbs : 0 < bs) {c : ScopeDataCollector}
    (h : Reachable tl bs c) :
    c.buffer.length = bs ∧ c.numCollected ≤ bs ∧
      (c.state = .collecting → c.numCollected < bs) := by
  induction h with
  | create q buffer hb => exact ⟨hb, Nat.zero_le _, fun h => by cases h⟩
  | process data _ ih => exact process_count tl bs bs _ data hbs ih.1 ih.2.1 ih.2.2
  | queue q _ ih => exact ih

/-- C14: in every state that a fresh collector reaches through calls of `process` on any
chunks, empty ones included, `numCollected` is at most `bufferSize`, and below
`bufferSize` whenever the state is `collecting`.  Consequently the next call, run with
explicit indices on any input region of at least `numSamples` samples, never fails: every
write `buffer[numCollected]` is inside the block of `bufferSize` samples, no sample
outside the first `numSamples` ones is read, and the call does what `process` does on
these samples. -/
theorem collected_count_bound (c : ScopeDataCollector)
    (h : Reachable triggerLevel bufferSize c) :
    c.buffer.length = bufferSize ∧ c.numCollected ≤ bufferSize ∧
      (c.state = .collecting → c.numCollected < bufferSize) ∧
      ∀ (mem : List Sample) (numSamples : Nat), numSamples ≤ mem.length →
        processAt triggerLevel bufferSize c mem numSamples =
          some (process triggerLevel bufferSize c (mem.take numSamples)) := by
  obtain ⟨h1, h2, h3⟩ := count_of_reachable triggerLevel bufferSize (by decide) h
  refine ⟨h1, h2, h3, fun mem n hn => ?_⟩
  exact processAt_eq triggerLevel bufferSize c mem n hn (by rw [h1]; decide)
    (fun hs => by rw [h1]; exact h3 hs)

/-- Witness of `collected_count_bound`: the collector after a fresh collector has
processed an empty chunk and then two samples. -/
theorem collected_count_bound_witness :
    Reachable triggerLevel bufferSize
        (process triggerLevel bufferSize
          (process triggerLevel bufferSize
            (create (AudioBufferQueue.create bufferSize numBuffers) (taggedBlock 0)) []).1
          [0, 1]).1 ∧
      (process triggerLevel bufferSize
          (process triggerLevel bufferSize
            (create (AudioBufferQueue.create bufferSize numBuffers) (taggedBlock 0)) []).1
          [0, 1]).1.numCollected ≤ bufferSize :=
  ⟨((Reachable.create _ _ (AudioBufferQueue.taggedBlock_length 0)).process []).process [0, 1],
    (collected_count_bound _
      (((Reachable.create _ _ (AudioBufferQueue.taggedBlock_length 0)).process []).process
        [0, 1])).2.1⟩

end ScopeDataCollector
